import Mathlib

/-! Bit-field packing library (`internal/bitpack`).

A shallow embedding of the Go package `bitpack` and proofs about it.

Machine integers are modelled on `Nat` / `Int` with explicit wrap-around:
* a `uint64` (and a `BitSet64`) is a natural number below `2^64`;
* a `uint8` (a `BitPosition`, a width) is a natural number below `256`;
* an `int64` is an integer in `[-2^63, 2^63 - 1]`.

Go functions returning `(T, error)` are modelled as a pair `T × Option Error`,
with `none` for the `nil` error; the first component is the value Go returns
alongside the error.
-/

namespace Bitpack

/-! ## Machine arithmetic -/

/-- Conversion `uint64(x)` of an `int64`: the two's-complement bit pattern. -/
def toUint64 (z : Int) : Nat := (z % 2 ^ 64).toNat

/-- Conversion `int64(x)` of a `uint64`: the bit pattern read as two's complement. -/
def toInt64 (n : Nat) : Int :=
  if n % 2 ^ 64 < 2 ^ 63 then ((n % 2 ^ 64 : Nat) : Int) else ((n % 2 ^ 64 : Nat) : Int) - 2 ^ 64

/-- Result of an `int64` arithmetic operation: the exact result wrapped to 64 bits. -/
def wrapInt64 (z : Int) : Int := toInt64 (toUint64 z)

/-- Go `x << s` on `uint64`: bits shifted out at the top are lost. -/
def shl64 (x s : Nat) : Nat := (x <<< s) % 2 ^ 64

/-- Go `x >> s` on `uint64`: logical shift. -/
def shr64 (x s : Nat) : Nat := x >>> s

/-- Go `x >> s` on `int64`: arithmetic shift. -/
def sar64 (x : Int) (s : Nat) : Int := x >>> s

/-- Go `^x` on `uint64`: `m ^ x` with `m` all 64 bits set. -/
def not64 (x : Nat) : Nat := (2 ^ 64 - 1) ^^^ x

/-- Go `x - y` on `uint64`. -/
def sub64 (x y : Nat) : Nat := (x + 2 ^ 64 - y % 2 ^ 64) % 2 ^ 64

/-- Go `x + y` on `uint8`. -/
def add8 (x y : Nat) : Nat := (x + y) % 256

/-- Go `x - y` on `uint8`. -/
def sub8 (x y : Nat) : Nat := (x + 256 - y % 256) % 256

/-! ## Errors (`bit_field_error.go`) -/

/-- The Go type `ErrorKind`. -/
inductive ErrorKind where
  | KindStartAfterEnd
  | KindEndOutOfRange
  | KindValueOverflow
  | KindValueUnderflow
  | KindValueRangeInverted
  | KindPositionOutOfRange
  | KindSliceEmpty
  | KindSliceTooLarge
  deriving DecidableEq, Repr

/-- The Go struct `errorDetails`; a field a constructor leaves out is zero. -/
structure errorDetails where
  Start : Nat := 0
  End : Nat := 0
  Position : Nat := 0
  Value : Nat := 0
  AllowedMax : Nat := 0
  BitWidth : Nat := 0
  MinValue : Int := 0
  MaxValue : Int := 0
  SignedValue : Int := 0
  SliceLength : Int := 0
  deriving DecidableEq, Repr

/-- The Go struct `Error`. -/
structure Error where
  Kind : ErrorKind
  Details : errorDetails := {}
  deriving DecidableEq, Repr

def newStartAfterEndError (start end_ : Nat) : Error :=
  { Kind := .KindStartAfterEnd, Details := { Start := start, End := end_ } }

def newEndOutOfRangeError (end_ : Nat) : Error :=
  { Kind := .KindEndOutOfRange, Details := { End := end_ } }

def newValueOverflowError (value allowedMax width : Nat) : Error :=
  { Kind := .KindValueOverflow,
    Details := { Value := value, AllowedMax := allowedMax, BitWidth := width } }

def newPositionOutOfRangeError (pos : Nat) : Error :=
  { Kind := .KindPositionOutOfRange, Details := { Position := pos } }

def newValueOutOfRangeError (valueMin valueMax allowedMin allowedMax : Int) (width : Nat) :
    Error :=
  let kind := if valueMin < allowedMin then ErrorKind.KindValueUnderflow
    else ErrorKind.KindValueOverflow
  { Kind := kind,
    Details := { SignedValue := valueMin, MinValue := allowedMin, MaxValue := allowedMax,
                 BitWidth := width } }

def newValueRangeInvertedError (min max : Int) : Error :=
  { Kind := .KindValueRangeInverted, Details := { MinValue := min, MaxValue := max } }

/-! ## Masks and ranges (`bit_pack.go`, `bit_field.go`) -/

def computeMask (width : Nat) : Nat :=
  if width ≥ 64 then 2 ^ 64 - 1 else sub64 (shl64 1 width) 1

def maxAllowedForWidth (width : Nat) : Nat :=
  if width ≥ 64 then 2 ^ 64 - 1 else sub64 (shl64 1 width) 1

def intRangeForWidth (width : Nat) : Int × Int :=
  if width ≥ 64 then (-2 ^ 63, 2 ^ 63 - 1)
  else
    let signBit := toInt64 (shl64 1 (sub8 width 1))
    (wrapInt64 (-signBit), wrapInt64 (signBit - 1))

/-! ## Signed fields -/

/-- The Go struct `IntBitField`. -/
structure IntBitField where
  Start : Nat
  End : Nat
  Min : Int
  Max : Int
  mask : Nat
  deriving DecidableEq, Repr

/-- The zero value `IntBitField{}` returned alongside an error. -/
def IntBitField.zero : IntBitField := ⟨0, 0, 0, 0, 0⟩

def NewIntBitField (start end_ : Nat) (min max : Int) : IntBitField × Option Error :=
  if start > end_ then (IntBitField.zero, some (newStartAfterEndError start end_))
  else if end_ ≥ 64 then (IntBitField.zero, some (newEndOutOfRangeError end_))
  else
    let width := add8 (sub8 end_ start) 1
    let allowed := intRangeForWidth width
    if min < allowed.1 ∨ max > allowed.2 then
      (IntBitField.zero, some (newValueOutOfRangeError min max allowed.1 allowed.2 width))
    else if min > max then
      (IntBitField.zero, some (newValueRangeInvertedError min max))
    else
      ({ Start := start, End := end_, Min := min, Max := max, mask := computeMask width }, none)

def NewIntBitFieldAuto (start end_ : Nat) : IntBitField × Option Error :=
  let width := add8 (sub8 end_ start) 1
  let range := intRangeForWidth width
  NewIntBitField start end_ range.1 range.2

def IntBitField.Width (bf : IntBitField) : Nat := add8 (sub8 bf.End bf.Start) 1

def IntBitField.Get (bf : IntBitField) (bitSet : Nat) : Int :=
  let raw := shr64 bitSet bf.Start &&& bf.mask
  let width := bf.Width
  if width = 64 then toInt64 raw
  else
    let shift := sub8 64 width
    sar64 (toInt64 (shl64 raw shift)) shift

def IntBitField.UpdateUnchecked (bf : IntBitField) (bitSet : Nat) (value : Int) : Nat :=
  let unsignedValue := toUint64 value &&& bf.mask
  let fieldMask := shl64 bf.mask bf.Start
  (bitSet &&& not64 fieldMask) ||| shl64 unsignedValue bf.Start

def IntBitField.Update (bf : IntBitField) (bitSet : Nat) (value : Int) : Nat × Option Error :=
  if value < bf.Min ∨ value > bf.Max then
    (bitSet, some (newValueOutOfRangeError value value bf.Min bf.Max bf.Width))
  else (bf.UpdateUnchecked bitSet value, none)

/-! ## Unsigned fields -/

/-- The Go struct `UIntBitField`. -/
structure UIntBitField where
  Start : Nat
  End : Nat
  Max : Nat
  mask : Nat
  deriving DecidableEq, Repr

/-- The zero value `UIntBitField{}` returned alongside an error. -/
def UIntBitField.zero : UIntBitField := ⟨0, 0, 0, 0⟩

def NewUIntBitField (start end_ max : Nat) : UIntBitField × Option Error :=
  if start > end_ then (UIntBitField.zero, some (newStartAfterEndError start end_))
  else if end_ ≥ 64 then (UIntBitField.zero, some (newEndOutOfRangeError end_))
  else
    let width := add8 (sub8 end_ start) 1
    let allowedMax := maxAllowedForWidth width
    if max > allowedMax then
      (UIntBitField.zero, some (newValueOverflowError max allowedMax width))
    else
      ({ Start := start, End := end_, Max := max, mask := computeMask width }, none)

def UIntBitField.Width (bf : UIntBitField) : Nat := add8 (sub8 bf.End bf.Start) 1

def UIntBitField.Get (bf : UIntBitField) (bitSet : Nat) : Nat :=
  shr64 bitSet bf.Start &&& bf.mask

def UIntBitField.UpdateUnchecked (bf : UIntBitField) (bitSet value : Nat) : Nat :=
  let fieldMask := shl64 bf.mask bf.Start
  (bitSet &&& not64 fieldMask) ||| shl64 (value &&& bf.mask) bf.Start

def UIntBitField.Update (bf : UIntBitField) (bitSet value : Nat) : Nat × Option Error :=
  if value > bf.Max then (bitSet, some (newValueOverflowError value bf.Max bf.Width))
  else (bf.UpdateUnchecked bitSet value, none)

/-! ## Boolean fields -/

/-- The Go struct `BoolBitField`. -/
structure BoolBitField where
  Position : Nat
  bitMask : Nat
  deriving DecidableEq, Repr

/-- The zero value `BoolBitField{}` returned alongside an error. -/
def BoolBitField.zero : BoolBitField := ⟨0, 0⟩

def NewBoolBitField (pos : Nat) : BoolBitField × Option Error :=
  if pos ≥ 64 then (BoolBitField.zero, some (newPositionOutOfRangeError pos))
  else ({ Position := pos, bitMask := shl64 1 pos }, none)

def BoolBitField.Get (bf : BoolBitField) (bitSet : Nat) : Bool :=
  (bitSet &&& bf.bitMask) != 0

def BoolBitField.UpdateUnchecked (bf : BoolBitField) (bitSet : Nat) (value : Bool) : Nat :=
  if value then bitSet ||| bf.bitMask else bitSet &&& not64 bf.bitMask

def BoolBitField.Update (bf : BoolBitField) (bitSet : Nat) (value : Bool) :
    Nat × Option Error :=
  (bf.UpdateUnchecked bitSet value, none)

def BoolBitField.Set (bf : BoolBitField) (bitSet : Nat) : Nat := bitSet ||| bf.bitMask

def BoolBitField.Clear (bf : BoolBitField) (bitSet : Nat) : Nat := bitSet &&& not64 bf.bitMask

def BoolBitField.Toggle (bf : BoolBitField) (bitSet : Nat) : Nat := bitSet ^^^ bf.bitMask

/-! ## Slice errors, sentinels, messages and matching (`bit_field_error.go`) -/

def newSliceEmptyError : Error := { Kind := .KindSliceEmpty }

def newSliceTooLargeError (length : Int) : Error :=
  { Kind := .KindSliceTooLarge, Details := { SliceLength := length } }

def ErrStartAfterEnd : Error := { Kind := .KindStartAfterEnd }

def ErrEndOutOfRange : Error := { Kind := .KindEndOutOfRange }

def ErrValueOverflow : Error := { Kind := .KindValueOverflow }

def ErrValueUnderflow : Error := { Kind := .KindValueUnderflow }

def ErrValueRangeInverted : Error := { Kind := .KindValueRangeInverted }

def ErrPositionOutOfRange : Error := { Kind := .KindPositionOutOfRange }

def ErrSliceEmpty : Error := { Kind := .KindSliceEmpty }

def ErrSliceTooLarge : Error := { Kind := .KindSliceTooLarge }

/-- A Go `error` interface value as the type assertion `target.(*Error)` sees it: a `*Error`
(`none` for the nil pointer), or a value of any other dynamic type (the nil interface
included). -/
inductive ErrorValue where
  | ofError (p : Option Error)
  | other
  deriving DecidableEq, Repr

/-- The method `(*Error).Is`; `none` is the nil-pointer panic of `t.Kind` on a nil `*Error`. -/
def Error.Is (e : Error) (target : ErrorValue) : Option Bool :=
  match target with
  | .other => some false
  | .ofError none => none
  | .ofError (some t) => some (decide (e.Kind = t.Kind))

/-- The method `(*Error).Error`: `fmt.Sprintf` with `%d` verbs, written with `toString`. -/
def Error.Error (e : Error) : String :=
  match e.Kind with
  | .KindStartAfterEnd =>
    "bit field range error: start position (" ++ toString e.Details.Start ++
      ") must be <= end position (" ++ toString e.Details.End ++ ")"
  | .KindEndOutOfRange =>
    "bit field range error: end position (" ++ toString e.Details.End ++ ") must be < 64"
  | .KindValueOverflow =>
    if e.Details.SignedValue ≠ 0 then
      "value " ++ toString e.Details.SignedValue ++ " exceeds maximum " ++
        toString e.Details.MaxValue ++ " for " ++ toString e.Details.BitWidth ++ "-bit field"
    else
      "value " ++ toString e.Details.Value ++ " exceeds capacity of " ++
        toString e.Details.BitWidth ++ "-bit field (max allowed: " ++
        toString e.Details.AllowedMax ++ ")"
  | .KindValueUnderflow =>
    "value " ++ toString e.Details.SignedValue ++ " is less than minimum " ++
      toString e.Details.MinValue ++ " for " ++ toString e.Details.BitWidth ++ "-bit field"
  | .KindPositionOutOfRange =>
    "bool bit field error: position (" ++ toString e.Details.Position ++ ") must be < 64"
  | .KindValueRangeInverted =>
    "value range inverted: min (" ++ toString e.Details.MinValue ++ ") > max (" ++
      toString e.Details.MaxValue ++ ")"
  | .KindSliceEmpty => "packed slice is empty"
  | .KindSliceTooLarge =>
    "packed slice too large: " ++ toString e.Details.SliceLength ++ " bytes (max 8)"

/-! ## Panicking constructors (`bit_field.go`); `Except.error msg` is `panic(msg)` -/

def MustNewIntBitField (start end_ : Nat) (min max : Int) : Except String IntBitField :=
  match NewIntBitField start end_ min max with
  | (bf, none) => .ok bf
  | (_, some err) =>
    .error ("FATAL: invalid static int bit field configuration [start=" ++ toString start ++
      ", end=" ++ toString end_ ++ ", min=" ++ toString min ++ ", max=" ++ toString max ++
      "]: " ++ err.Error)

def MustNewUIntBitField (start end_ max : Nat) : Except String UIntBitField :=
  match NewUIntBitField start end_ max with
  | (bf, none) => .ok bf
  | (_, some err) =>
    .error ("FATAL: invalid static bit field configuration [start=" ++ toString start ++
      ", end=" ++ toString end_ ++ ", max=" ++ toString max ++ "]: " ++ err.Error)

def MustNewBoolBitField (pos : Nat) : Except String BoolBitField :=
  match NewBoolBitField pos with
  | (bf, none) => .ok bf
  | (_, some err) =>
    .error ("FATAL: invalid static bool bit field configuration [position=" ++
      toString pos ++ "]: " ++ err.Error)

/-! ## Byte codec (`bit_pack.go`); a `[]byte` is a list of naturals below 256 -/

/-- The loop of `UnpackBytes` from index `i` on, with the accumulator `result`. -/
def UnpackBytes.loop (i : Nat) (result : Nat) : List Nat → Nat
  | [] => result
  | b :: rest => UnpackBytes.loop (i + 1) (result ||| shl64 b (8 * i)) rest

def UnpackBytes (data : List Nat) : Nat := UnpackBytes.loop 0 0 data

/-- The loop of `PackBytes` from index `i` on; it returns the bytes the slice holds after. -/
def PackBytes.loop (value : Nat) (i : Nat) : List Nat → List Nat
  | [] => []
  | _ :: rest => (shr64 value (8 * i) % 256) :: PackBytes.loop value (i + 1) rest

/-- `PackBytes` writes into `data` in place; the model returns the slice's new contents. -/
def PackBytes (data : List Nat) (value : Nat) : List Nat := PackBytes.loop value 0 data

/-! ## Typed byte-slice accessors (`bit_pack.go`, `types.go`) -/

/-- The type set of the constraint `UnsignedInteger`. -/
inductive UnsignedInteger where
  | uint8 | uint16 | uint32 | uint64
  deriving DecidableEq, Repr

def UnsignedInteger.bits : UnsignedInteger → Nat
  | .uint8 => 8
  | .uint16 => 16
  | .uint32 => 32
  | .uint64 => 64

/-- The conversion `T(x)` of a `uint64`: truncation to the bits of `T`. -/
def UnsignedInteger.convert (T : UnsignedInteger) (x : Nat) : Nat := x % 2 ^ T.bits

/-- The type set of the constraint `SignedInteger`. -/
inductive SignedInteger where
  | int8 | int16 | int32 | int64
  deriving DecidableEq, Repr

def SignedInteger.bits : SignedInteger → Nat
  | .int8 => 8
  | .int16 => 16
  | .int32 => 32
  | .int64 => 64

/-- The conversion `T(x)` of an `int64`: the low bits of `T` read as two's complement. -/
def SignedInteger.convert (T : SignedInteger) (x : Int) : Int :=
  if x % 2 ^ T.bits < 2 ^ (T.bits - 1) then x % 2 ^ T.bits else x % 2 ^ T.bits - 2 ^ T.bits

def GetUIntFieldAs (T : UnsignedInteger) (packed : List Nat) (field : UIntBitField) : Nat :=
  T.convert (field.Get (UnpackBytes packed))

def GetIntFieldAs (T : SignedInteger) (packed : List Nat) (field : IntBitField) : Int :=
  T.convert (field.Get (UnpackBytes packed))

def GetBoolField (packed : List Nat) (field : BoolBitField) : Bool :=
  field.Get (UnpackBytes packed)

/-- The setters write into `packed` in place; the model returns the slice's new contents.
A `value` of type `T` is its numeric value, so `uint64(value)` is `value`. -/
def SetUIntFieldUncheckedAs (T : UnsignedInteger) (packed : List Nat) (field : UIntBitField)
    (value : Nat) : List Nat :=
  PackBytes packed (field.UpdateUnchecked (UnpackBytes packed) value)

def SetIntFieldUncheckedAs (T : SignedInteger) (packed : List Nat) (field : IntBitField)
    (value : Int) : List Nat :=
  PackBytes packed (field.UpdateUnchecked (UnpackBytes packed) value)

def SetBoolFieldUnchecked (packed : List Nat) (field : BoolBitField) (value : Bool) :
    List Nat :=
  let bits := UnpackBytes packed
  let bits := if value then field.Set bits else field.Clear bits
  PackBytes packed bits

/-- The checked setters return the slice's contents after the call and the error. -/
def SetUIntFieldAs (T : UnsignedInteger) (packed : List Nat) (field : UIntBitField)
    (value : Nat) : List Nat × Option Error :=
  if packed.length = 0 then (packed, some newSliceEmptyError)
  else if packed.length > 8 then (packed, some (newSliceTooLargeError packed.length))
  else
    match field.Update (UnpackBytes packed) value with
    | (_, some err) => (packed, some err)
    | (bits, none) => (PackBytes packed bits, none)

def SetIntFieldAs (T : SignedInteger) (packed : List Nat) (field : IntBitField)
    (value : Int) : List Nat × Option Error :=
  if packed.length = 0 then (packed, some newSliceEmptyError)
  else if packed.length > 8 then (packed, some (newSliceTooLargeError packed.length))
  else
    match field.Update (UnpackBytes packed) value with
    | (_, some err) => (packed, some err)
    | (bits, none) => (PackBytes packed bits, none)

def SetBoolField (packed : List Nat) (field : BoolBitField) (value : Bool) :
    List Nat × Option Error :=
  if packed.length = 0 then (packed, some newSliceEmptyError)
  else if packed.length > 8 then (packed, some (newSliceTooLargeError packed.length))
  else (SetBoolFieldUnchecked packed field value, none)

/-! ## Person schema (`internal/model/config/config.go`,
`internal/model/bitpack/person/schema.go`); `uint64(c)` of a constant is the constant -/

def MaxNameLength : Nat := 42

def PersonMaxHealth : Nat := 1000

def PersonMaxMana : Nat := 1000

def PersonMaxRespect : Nat := 10

def PersonMaxStrength : Nat := 10

def PersonMaxExperience : Nat := 10

def PersonMaxLevel : Nat := 10

def PersonMaxTypeIndex : Nat := 3

def bitNameStart : Nat := 0

def bitNameEnd : Nat := 5

def bitRespectStart : Nat := 6

def bitRespectEnd : Nat := 9

def bitStrengthStart : Nat := 10

def bitStrengthEnd : Nat := 13

def bitExperienceStart : Nat := 14

def bitExperienceEnd : Nat := 17

def bitLevelStart : Nat := 18

def bitLevelEnd : Nat := 21

def bitTypeStart : Nat := 22

def bitTypeEnd : Nat := 23

def bitHousePos : Nat := 24

def bitWeaponPos : Nat := 25

def bitFamilyPos : Nat := 26

def bitManaStart : Nat := 27

def bitManaEnd : Nat := 36

def bitHealthStart : Nat := 37

def bitHealthEnd : Nat := 46

def nameSizeField : Except String UIntBitField :=
  MustNewUIntBitField bitNameStart bitNameEnd MaxNameLength

def manaField : Except String UIntBitField :=
  MustNewUIntBitField bitManaStart bitManaEnd PersonMaxMana

def healthField : Except String UIntBitField :=
  MustNewUIntBitField bitHealthStart bitHealthEnd PersonMaxHealth

def respectField : Except String UIntBitField :=
  MustNewUIntBitField bitRespectStart bitRespectEnd PersonMaxRespect

def strengthField : Except String UIntBitField :=
  MustNewUIntBitField bitStrengthStart bitStrengthEnd PersonMaxStrength

def experienceField : Except String UIntBitField :=
  MustNewUIntBitField bitExperienceStart bitExperienceEnd PersonMaxExperience

def levelField : Except String UIntBitField :=
  MustNewUIntBitField bitLevelStart bitLevelEnd PersonMaxLevel

def typeField : Except String UIntBitField :=
  MustNewUIntBitField bitTypeStart bitTypeEnd PersonMaxTypeIndex

def houseField : Except String BoolBitField := MustNewBoolBitField bitHousePos

def weaponField : Except String BoolBitField := MustNewBoolBitField bitWeaponPos

def familyField : Except String BoolBitField := MustNewBoolBitField bitFamilyPos

/-! ## Machine arithmetic lemmas -/

theorem width_eq {s e : Nat} (h1 : s ≤ e) (h2 : e ≤ 63) : add8 (sub8 e s) 1 = e - s + 1 := by
  unfold add8 sub8
  omega

theorem shl64_one {w : Nat} (h : w < 64) : shl64 1 w = 2 ^ w := by
  unfold shl64
  rw [Nat.shiftLeft_eq, Nat.one_mul]
  exact Nat.mod_eq_of_lt (Nat.pow_lt_pow_right (by norm_num) h)

theorem computeMask_eq {w : Nat} (h : w ≤ 64) : computeMask w = 2 ^ w - 1 := by
  unfold computeMask
  split
  · have : w = 64 := by omega
    subst this
    rfl
  · have hw : w < 64 := by omega
    rw [shl64_one hw]
    have h1 : 2 ^ w < 2 ^ 64 := Nat.pow_lt_pow_right (by norm_num) hw
    have h2 : 0 < 2 ^ w := Nat.pos_pow_of_pos _ (by norm_num)
    unfold sub64
    omega

theorem maxAllowedForWidth_eq {w : Nat} (h : w ≤ 64) : maxAllowedForWidth w = 2 ^ w - 1 :=
  computeMask_eq h

theorem testBit_shl64 (x s i : Nat) :
    (shl64 x s).testBit i = (decide (i < 64) && (decide (s ≤ i) && x.testBit (i - s))) := by
  unfold shl64
  rw [Nat.testBit_mod_two_pow, Nat.testBit_shiftLeft]

theorem testBit_not64 (x i : Nat) :
    (not64 x).testBit i = (decide (i < 64) ^^ x.testBit i) := by
  unfold not64
  rw [Nat.testBit_xor, Nat.testBit_two_pow_sub_one]

/-- Bit `i` of the word written by either `UpdateUnchecked`, for a mask of `w` ones. -/
theorem testBit_updateCore (bitSet v s w i : Nat) (hsw : s + w ≤ 64) :
    ((bitSet &&& not64 (shl64 (2 ^ w - 1) s)) ||| shl64 (v &&& (2 ^ w - 1)) s).testBit i =
      if s ≤ i ∧ i < s + w then v.testBit (i - s) else (decide (i < 64) && bitSet.testBit i) := by
  rw [Nat.testBit_or, Nat.testBit_and, testBit_not64, testBit_shl64, testBit_shl64,
    Nat.testBit_and, Nat.testBit_two_pow_sub_one]
  by_cases h1 : s ≤ i
  · by_cases h2 : i < s + w
    · have h3 : i < 64 := by omega
      have h4 : i - s < w := by omega
      simp [h1, h2, h3, h4]
    · have h4 : ¬ (i - s < w) := by omega
      by_cases h3 : i < 64 <;> simp [h1, h2, h3, h4, Bool.and_comm]
  · by_cases h3 : i < 64 <;> simp [h1, h3, Bool.and_comm]

theorem toInt64_of_lt {n : Nat} (h : n < 2 ^ 63) : toInt64 n = n := by
  unfold toInt64
  have : n % 2 ^ 64 = n := Nat.mod_eq_of_lt (by omega)
  rw [this, if_pos h]

theorem wrapInt64_of_range {z : Int} (h1 : -2 ^ 63 ≤ z) (h2 : z ≤ 2 ^ 63 - 1) :
    wrapInt64 z = z := by
  unfold wrapInt64 toInt64 toUint64
  split <;> omega

theorem intRangeForWidth_eq {w : Nat} (h1 : 1 ≤ w) (h2 : w ≤ 64) :
    intRangeForWidth w = (-2 ^ (w - 1), 2 ^ (w - 1) - 1) := by
  unfold intRangeForWidth
  split
  · have : w = 64 := by omega
    subst this
    rfl
  · have hs : sub8 w 1 = w - 1 := by unfold sub8; omega
    have hlt : w - 1 < 63 := by omega
    have hp : (2 : Nat) ^ (w - 1) < 2 ^ 63 := Nat.pow_lt_pow_right (by norm_num) hlt
    have hp0 : 0 < (2 : Nat) ^ (w - 1) := Nat.pos_pow_of_pos _ (by norm_num)
    have hpz : ((2 ^ (w - 1) : Nat) : Int) = (2 : Int) ^ (w - 1) := by push_cast; rfl
    simp only [hs]
    rw [shl64_one (by omega), toInt64_of_lt hp, hpz]
    have hz1 : (2 : Int) ^ (w - 1) < 2 ^ 63 := by rw [← hpz]; exact_mod_cast hp
    have hz0 : 0 < (2 : Int) ^ (w - 1) := by rw [← hpz]; exact_mod_cast hp0
    rw [wrapInt64_of_range (by omega) (by omega), wrapInt64_of_range (by omega) (by omega)]

/-- What a successful `NewUIntBitField` guarantees. -/
theorem NewUIntBitField_ok {s e m : Nat} {bf : UIntBitField}
    (h : NewUIntBitField s e m = (bf, none)) :
    s ≤ e ∧ e ≤ 63 ∧ m ≤ 2 ^ (e - s + 1) - 1 ∧
      bf = { Start := s, End := e, Max := m, mask := 2 ^ (e - s + 1) - 1 } := by
  unfold NewUIntBitField at h
  split at h
  · simp at h
  split at h
  · simp at h
  have h1 : s ≤ e := by omega
  have h2 : e ≤ 63 := by omega
  simp only [width_eq h1 h2] at h
  rw [maxAllowedForWidth_eq (by omega), computeMask_eq (by omega)] at h
  split at h
  · simp at h
  · simp only [Prod.mk.injEq, and_true] at h
    exact ⟨h1, h2, by omega, h.symm⟩

/-- What a successful `NewIntBitField` guarantees. -/
theorem NewIntBitField_ok {s e : Nat} {mn mx : Int} {bf : IntBitField}
    (h : NewIntBitField s e mn mx = (bf, none)) :
    s ≤ e ∧ e ≤ 63 ∧ -2 ^ (e - s) ≤ mn ∧ mn ≤ mx ∧ mx ≤ 2 ^ (e - s) - 1 ∧
      bf = { Start := s, End := e, Min := mn, Max := mx, mask := 2 ^ (e - s + 1) - 1 } := by
  unfold NewIntBitField at h
  split at h
  · simp at h
  split at h
  · simp at h
  have h1 : s ≤ e := by omega
  have h2 : e ≤ 63 := by omega
  simp only [width_eq h1 h2] at h
  rw [intRangeForWidth_eq (by omega) (by omega), computeMask_eq (by omega)] at h
  simp only [Nat.add_sub_cancel] at h
  split at h
  · simp at h
  split at h
  · simp at h
  · simp only [Prod.mk.injEq, and_true] at h
    exact ⟨h1, h2, by omega, by omega, by omega, h.symm⟩

/-- Extraction `(bitSet >> s) & mask` reads back the low `w` bits written at `s`. -/
theorem extract_updateCore (bitSet v s w : Nat) (hsw : s + w ≤ 64) :
    shr64 ((bitSet &&& not64 (shl64 (2 ^ w - 1) s)) ||| shl64 (v &&& (2 ^ w - 1)) s) s
      &&& (2 ^ w - 1) = v % 2 ^ w := by
  apply Nat.eq_of_testBit_eq
  intro j
  unfold shr64
  rw [Nat.testBit_and, Nat.testBit_shiftRight, testBit_updateCore _ _ _ _ _ hsw,
    Nat.testBit_two_pow_sub_one, Nat.testBit_mod_two_pow]
  by_cases hj : j < w
  · have h1 : s ≤ s + j ∧ s + j < s + w := ⟨by omega, by omega⟩
    simp [hj, h1]
  · simp [hj]

/-- Sign extension by the shift pair `<< (64 - w)`, `>> (64 - w)` of a `w`-bit pattern. -/
theorem signExtend_core (raw w : Nat) (hw1 : 1 ≤ w) (hw : w < 64) (hraw : raw < 2 ^ w) :
    sar64 (toInt64 (shl64 raw (64 - w))) (64 - w) =
      if raw < 2 ^ (w - 1) then (raw : Int) else (raw : Int) - 2 ^ w := by
  have hP : 2 ^ w * 2 ^ (64 - w) = 2 ^ 64 := by
    rw [← Nat.pow_add]; congr 1; omega
  have hQ : 2 ^ (w - 1) * 2 ^ (64 - w) = 2 ^ 63 := by
    rw [← Nat.pow_add]; congr 1; omega
  have hk : 0 < 2 ^ (64 - w) := Nat.pos_pow_of_pos _ (by norm_num)
  have hlt : raw * 2 ^ (64 - w) < 2 ^ 64 := by
    rw [← hP]; exact Nat.mul_lt_mul_of_pos_right hraw hk
  have hshl : shl64 raw (64 - w) = raw * 2 ^ (64 - w) := by
    unfold shl64
    rw [Nat.shiftLeft_eq, Nat.mod_eq_of_lt hlt]
  have hkz : ((2 ^ (64 - w) : Nat) : Int) ≠ 0 := by
    exact_mod_cast Nat.ne_of_gt hk
  rw [hshl]
  unfold toInt64 sar64
  rw [Nat.mod_eq_of_lt hlt, Int.shiftRight_eq_div_pow]
  by_cases hr : raw < 2 ^ (w - 1)
  · have h1 : raw * 2 ^ (64 - w) < 2 ^ 63 := by
      rw [← hQ]; exact Nat.mul_lt_mul_of_pos_right hr hk
    rw [if_pos h1, if_pos hr]
    push_cast
    exact Int.mul_ediv_cancel _ (by exact_mod_cast hkz)
  · have h1 : ¬ raw * 2 ^ (64 - w) < 2 ^ 63 := by
      rw [← hQ]
      intro hc
      exact hr (Nat.lt_of_mul_lt_mul_right hc)
    rw [if_neg h1, if_neg hr]
    have e : ((raw * 2 ^ (64 - w) : Nat) : Int) - 2 ^ 64
        = ((raw : Int) - 2 ^ w) * ((2 ^ (64 - w) : Nat) : Int) := by
      have : ((2 ^ 64 : Nat) : Int) = (2 : Int) ^ 64 := by norm_num
      rw [← this, ← hP]
      push_cast
      ring
    rw [e]
    exact Int.mul_ediv_cancel _ hkz

/-- The signed `Get` of a field at `[s, e]` with the mask of its width. -/
theorem int_get_eq {s e : Nat} (h1 : s ≤ e) (h2 : e ≤ 63) (mn mx : Int) (word : Nat) :
    (IntBitField.mk s e mn mx (2 ^ (e - s + 1) - 1)).Get word =
      if shr64 word s % 2 ^ (e - s + 1) < 2 ^ (e - s)
      then ((shr64 word s % 2 ^ (e - s + 1) : Nat) : Int)
      else ((shr64 word s % 2 ^ (e - s + 1) : Nat) : Int) - 2 ^ (e - s + 1) := by
  unfold IntBitField.Get IntBitField.Width
  simp only [width_eq h1 h2, Nat.and_pow_two_sub_one_eq_mod]
  have hraw : shr64 word s % 2 ^ (e - s + 1) < 2 ^ (e - s + 1) :=
    Nat.mod_lt _ (Nat.pos_pow_of_pos _ (by norm_num))
  by_cases hw : e - s + 1 = 64
  · rw [if_pos hw]
    have he : e - s = 63 := by omega
    rw [hw] at hraw ⊢
    rw [he]
    unfold toInt64
    rw [Nat.mod_eq_of_lt hraw]
  · rw [if_neg hw]
    have hs : sub8 64 (e - s + 1) = 64 - (e - s + 1) := by unfold sub8; omega
    rw [hs, signExtend_core _ _ (by omega) (by omega) hraw]
    simp only [Nat.add_sub_cancel]

theorem toUint64_mod_cast (v : Int) {w : Nat} (hw : w ≤ 64) :
    ((toUint64 v % 2 ^ w : Nat) : Int) = v % 2 ^ w := by
  unfold toUint64
  have h0 : (0 : Int) ≤ v % 2 ^ 64 := Int.emod_nonneg _ (by norm_num)
  have hd : (2 : Int) ^ w ∣ 2 ^ 64 := pow_dvd_pow 2 hw
  rw [Int.natCast_mod, Int.toNat_of_nonneg h0]
  push_cast
  exact Int.emod_emod_of_dvd v hd

/-- Reading a signed field after an unchecked write: the value wrapped to the width. -/
theorem int_get_update {s e : Nat} (h1 : s ≤ e) (h2 : e ≤ 63) (mn mx : Int) (word : Nat)
    (v : Int) :
    (IntBitField.mk s e mn mx (2 ^ (e - s + 1) - 1)).Get
        ((IntBitField.mk s e mn mx (2 ^ (e - s + 1) - 1)).UpdateUnchecked word v) =
      (v + 2 ^ (e - s)) % 2 ^ (e - s + 1) - 2 ^ (e - s) := by
  rw [int_get_eq h1 h2]
  have hx : shr64 ((IntBitField.mk s e mn mx (2 ^ (e - s + 1) - 1)).UpdateUnchecked word v) s
      % 2 ^ (e - s + 1) = toUint64 v % 2 ^ (e - s + 1) := by
    rw [← Nat.and_pow_two_sub_one_eq_mod]
    unfold IntBitField.UpdateUnchecked
    simp only
    rw [extract_updateCore _ _ _ _ (by omega)]
  rw [hx]
  have hc := toUint64_mod_cast v (show e - s + 1 ≤ 64 by omega)
  have hM : (2 : Int) ^ (e - s + 1) = 2 * 2 ^ (e - s) := by rw [pow_succ]; ring
  have hH : (0 : Int) < 2 ^ (e - s) := by positivity
  have hx0 : 0 ≤ v % 2 ^ (e - s + 1) := Int.emod_nonneg _ (by positivity)
  have hx1 : v % 2 ^ (e - s + 1) < 2 ^ (e - s + 1) := Int.emod_lt_of_pos _ (by positivity)
  have hdec : v = v % 2 ^ (e - s + 1) + 2 ^ (e - s + 1) * (v / 2 ^ (e - s + 1)) :=
    (Int.emod_add_ediv v _).symm
  have hlt : (toUint64 v % 2 ^ (e - s + 1) < 2 ^ (e - s)) ↔
      (v % 2 ^ (e - s + 1) < 2 ^ (e - s)) := by
    rw [← hc]
    have : ((2 ^ (e - s) : Nat) : Int) = (2 : Int) ^ (e - s) := by push_cast; rfl
    rw [← this]
    exact Int.ofNat_lt.symm
  rw [hc]
  by_cases hr : v % 2 ^ (e - s + 1) < 2 ^ (e - s)
  · rw [if_pos (hlt.mpr hr)]
    have : (v + 2 ^ (e - s)) % 2 ^ (e - s + 1) = v % 2 ^ (e - s + 1) + 2 ^ (e - s) := by
      conv_lhs => rw [hdec]
      rw [show v % 2 ^ (e - s + 1) + 2 ^ (e - s + 1) * (v / 2 ^ (e - s + 1)) + 2 ^ (e - s)
        = (v % 2 ^ (e - s + 1) + 2 ^ (e - s)) + 2 ^ (e - s + 1) * (v / 2 ^ (e - s + 1)) by ring,
        Int.add_mul_emod_self_left]
      exact Int.emod_eq_of_lt (by omega) (by omega)
    rw [this]; ring
  · rw [if_neg (fun hh => hr (hlt.mp hh))]
    have : (v + 2 ^ (e - s)) % 2 ^ (e - s + 1) = v % 2 ^ (e - s + 1) - 2 ^ (e - s) := by
      conv_lhs => rw [hdec]
      rw [show v % 2 ^ (e - s + 1) + 2 ^ (e - s + 1) * (v / 2 ^ (e - s + 1)) + 2 ^ (e - s)
        = (v % 2 ^ (e - s + 1) - 2 ^ (e - s)) + 2 ^ (e - s + 1) * (v / 2 ^ (e - s + 1) + 1)
        by rw [hM]; ring, Int.add_mul_emod_self_left]
      exact Int.emod_eq_of_lt (by omega) (by omega)
    rw [this, hM]; ring

/-! ## Round trips -/

/-- C1: for a signed field returned without error by `NewIntBitField`, every word and every
value `v` with `min ≤ v ≤ max`, `Update` returns no error and `Get` of the returned word is
`v`. -/
theorem C1_int_round_trip (start end_ : Nat) (min max : Int) (bf : IntBitField) (word : Nat)
    (v : Int) (h : NewIntBitField start end_ min max = (bf, none))
    (hmin : min ≤ v) (hmax : v ≤ max) :
    (bf.Update word v).2 = none ∧ bf.Get (bf.Update word v).1 = v := by
  obtain ⟨h1, h2, hlo, -, hhi, rfl⟩ := NewIntBitField_ok h
  have hu : IntBitField.Update ⟨start, end_, min, max, 2 ^ (end_ - start + 1) - 1⟩ word v =
      (IntBitField.UpdateUnchecked ⟨start, end_, min, max, 2 ^ (end_ - start + 1) - 1⟩ word v,
        none) := by
    unfold IntBitField.Update
    rw [if_neg (by simp only; omega)]
  rw [hu]
  refine ⟨rfl, ?_⟩
  simp only
  rw [int_get_update h1 h2]
  have hM : (2 : Int) ^ (end_ - start + 1) = 2 * 2 ^ (end_ - start) := by rw [pow_succ]; ring
  rw [Int.emod_eq_of_lt (by omega) (by omega)]
  ring

theorem C1_int_round_trip_witness :
    NewIntBitField 8 15 (-128) 127 = (⟨8, 15, -128, 127, 255⟩, none) ∧ (-128 : Int) ≤ -3 ∧
      (-3 : Int) ≤ 127 ∧
      ((IntBitField.mk 8 15 (-128) 127 255).Update 0xFF00FF (-3)).2 = none ∧
      (IntBitField.mk 8 15 (-128) 127 255).Get
        ((IntBitField.mk 8 15 (-128) 127 255).Update 0xFF00FF (-3)).1 = -3 :=
  ⟨by decide, by decide, by decide,
    C1_int_round_trip 8 15 (-128) 127 ⟨8, 15, -128, 127, 255⟩ 0xFF00FF (-3)
      (by decide) (by decide) (by decide)⟩

/-- C2: for an unsigned field returned without error by `NewUIntBitField`, every word and
every value `v ≤ max`, `Update` returns no error and `Get` of the returned word is `v`. -/
theorem C2_uint_round_trip (start end_ max : Nat) (bf : UIntBitField) (word v : Nat)
    (h : NewUIntBitField start end_ max = (bf, none)) (hv : v ≤ max) :
    (bf.Update word v).2 = none ∧ bf.Get (bf.Update word v).1 = v := by
  obtain ⟨h1, h2, hm, rfl⟩ := NewUIntBitField_ok h
  have hu : UIntBitField.Update ⟨start, end_, max, 2 ^ (end_ - start + 1) - 1⟩ word v =
      (UIntBitField.UpdateUnchecked ⟨start, end_, max, 2 ^ (end_ - start + 1) - 1⟩ word v,
        none) := by
    unfold UIntBitField.Update
    rw [if_neg (by simp only; omega)]
  rw [hu]
  refine ⟨rfl, ?_⟩
  unfold UIntBitField.Get UIntBitField.UpdateUnchecked
  simp only
  rw [extract_updateCore _ _ _ _ (by omega)]
  have hp : 0 < 2 ^ (end_ - start + 1) := Nat.pos_pow_of_pos _ (by norm_num)
  exact Nat.mod_eq_of_lt (by omega)

theorem C2_uint_round_trip_witness :
    NewUIntBitField 4 11 200 = (⟨4, 11, 200, 255⟩, none) ∧ 171 ≤ 200 ∧
      ((UIntBitField.mk 4 11 200 255).Update 0xFF00FF 171).2 = none ∧
      (UIntBitField.mk 4 11 200 255).Get
        ((UIntBitField.mk 4 11 200 255).Update 0xFF00FF 171).1 = 171 :=
  ⟨by decide, by decide,
    C2_uint_round_trip 4 11 200 ⟨4, 11, 200, 255⟩ 0xFF00FF 171 (by decide) (by decide)⟩

/-! ## Frame lemmas -/

theorem testBit_ge_64 {word i : Nat} (hw : word < 2 ^ 64) (hi : 64 ≤ i) :
    word.testBit i = false :=
  Nat.testBit_lt_two_pow (Nat.lt_of_lt_of_le hw (Nat.pow_le_pow_right (by norm_num) hi))

/-- Outside `[s, s + w)` and below bit 64 the written word has the bits of the input. -/
theorem frame_updateCore (bitSet v s w i : Nat) (hsw : s + w ≤ 64) (hi : i < s ∨ s + w ≤ i)
    (h64 : i < 64) :
    ((bitSet &&& not64 (shl64 (2 ^ w - 1) s)) ||| shl64 (v &&& (2 ^ w - 1)) s).testBit i =
      bitSet.testBit i := by
  rw [testBit_updateCore _ _ _ _ _ hsw, if_neg (by omega)]
  simp [h64]

/-- At and above bit 64 the written word has no bit set. -/
theorem high_updateCore (bitSet v s w i : Nat) (hsw : s + w ≤ 64) (h64 : 64 ≤ i) :
    ((bitSet &&& not64 (shl64 (2 ^ w - 1) s)) ||| shl64 (v &&& (2 ^ w - 1)) s).testBit i =
      false := by
  rw [testBit_updateCore _ _ _ _ _ hsw, if_neg (by omega)]
  simp [show ¬ i < 64 by omega]

/-- The extraction `(word >> s) & mask` only depends on the bits in `[s, s + w)`. -/
theorem extract_congr (w1 w2 s w : Nat)
    (h : ∀ i, s ≤ i → i < s + w → w1.testBit i = w2.testBit i) :
    shr64 w1 s &&& (2 ^ w - 1) = shr64 w2 s &&& (2 ^ w - 1) := by
  apply Nat.eq_of_testBit_eq
  intro j
  unfold shr64
  rw [Nat.testBit_and, Nat.testBit_and, Nat.testBit_shiftRight, Nat.testBit_shiftRight,
    Nat.testBit_two_pow_sub_one]
  by_cases hj : j < w
  · rw [h (s + j) (by omega) (by omega)]
  · simp [hj]

theorem int_get_congr (bf : IntBitField) (w1 w2 : Nat)
    (h : shr64 w1 bf.Start &&& bf.mask = shr64 w2 bf.Start &&& bf.mask) :
    bf.Get w1 = bf.Get w2 := by
  unfold IntBitField.Get
  simp only [h]

/-- What a successful `NewBoolBitField` guarantees. -/
theorem NewBoolBitField_ok {p : Nat} {bf : BoolBitField} (h : NewBoolBitField p = (bf, none)) :
    p ≤ 63 ∧ bf = { Position := p, bitMask := 2 ^ p } := by
  unfold NewBoolBitField at h
  split at h
  · simp at h
  · rw [shl64_one (by omega)] at h
    simp only [Prod.mk.injEq, and_true] at h
    exact ⟨by omega, h.symm⟩

theorem bool_get_eq (p word : Nat) : (BoolBitField.mk p (2 ^ p)).Get word = word.testBit p := by
  unfold BoolBitField.Get
  simp only [Nat.and_two_pow]
  cases word.testBit p <;> simp

theorem testBit_bool_set (p word i : Nat) :
    (word ||| 2 ^ p).testBit i = (word.testBit i || decide (p = i)) := by
  rw [Nat.testBit_or, Nat.testBit_two_pow]

theorem testBit_bool_clear (p word i : Nat) (hp : p ≤ 63) :
    (word &&& not64 (2 ^ p)).testBit i = (word.testBit i && (decide (i < 64) && !decide (p = i)))
    := by
  rw [Nat.testBit_and, testBit_not64, Nat.testBit_two_pow]
  by_cases h1 : p = i
  · have : i < 64 := by omega
    simp [h1, this]
  · simp [h1]

theorem testBit_bool_toggle (p word i : Nat) :
    (word ^^^ 2 ^ p).testBit i = (word.testBit i ^^ decide (p = i)) := by
  rw [Nat.testBit_xor, Nat.testBit_two_pow]

theorem uint_frame {s e : Nat} (m : Nat) (h1 : s ≤ e) (h2 : e ≤ 63) (word v i : Nat)
    (hi : i < s ∨ e < i) (h64 : i < 64 ∨ word < 2 ^ 64) :
    ((UIntBitField.mk s e m (2 ^ (e - s + 1) - 1)).UpdateUnchecked word v).testBit i =
      word.testBit i := by
  unfold UIntBitField.UpdateUnchecked
  simp only
  by_cases hlt : i < 64
  · exact frame_updateCore _ _ _ _ _ (by omega) (by omega) hlt
  · rw [high_updateCore _ _ _ _ _ (by omega) (by omega),
      testBit_ge_64 (h64.resolve_left hlt) (by omega)]

theorem int_frame {s e : Nat} (mn mx : Int) (h1 : s ≤ e) (h2 : e ≤ 63) (word : Nat) (v : Int)
    (i : Nat) (hi : i < s ∨ e < i) (h64 : i < 64 ∨ word < 2 ^ 64) :
    ((IntBitField.mk s e mn mx (2 ^ (e - s + 1) - 1)).UpdateUnchecked word v).testBit i =
      word.testBit i := by
  unfold IntBitField.UpdateUnchecked
  simp only
  by_cases hlt : i < 64
  · exact frame_updateCore _ _ _ _ _ (by omega) (by omega) hlt
  · rw [high_updateCore _ _ _ _ _ (by omega) (by omega),
      testBit_ge_64 (h64.resolve_left hlt) (by omega)]

theorem uint_update_cases (bf : UIntBitField) (word v : Nat) :
    (bf.Update word v).1 = word ∨ (bf.Update word v).1 = bf.UpdateUnchecked word v := by
  unfold UIntBitField.Update
  split
  · exact Or.inl rfl
  · exact Or.inr rfl

theorem int_update_cases (bf : IntBitField) (word : Nat) (v : Int) :
    (bf.Update word v).1 = word ∨ (bf.Update word v).1 = bf.UpdateUnchecked word v := by
  unfold IntBitField.Update
  split
  · exact Or.inl rfl
  · exact Or.inr rfl

/-! ## Frame of an update -/

/-- C3: for every validly constructed unsigned or signed field, every 64-bit word and every
value (in range or not), the word returned by `UpdateUnchecked`, and the word returned by
`Update`, agree with the input word on every bit outside positions `[Start, End]`; the
8-bit unsigned field at `[4,11]` updated to `0xAB` in `0xFF00FF` gives `0xFF0ABF`. -/
theorem C3_update_frame :
    (∀ (start end_ max : Nat) (bf : UIntBitField) (word v i : Nat),
      NewUIntBitField start end_ max = (bf, none) → word < 2 ^ 64 →
      (i < bf.Start ∨ bf.End < i) →
        (bf.UpdateUnchecked word v).testBit i = word.testBit i ∧
        (bf.Update word v).1.testBit i = word.testBit i) ∧
    (∀ (start end_ : Nat) (min max : Int) (bf : IntBitField) (word : Nat) (v : Int) (i : Nat),
      NewIntBitField start end_ min max = (bf, none) → word < 2 ^ 64 →
      (i < bf.Start ∨ bf.End < i) →
        (bf.UpdateUnchecked word v).testBit i = word.testBit i ∧
        (bf.Update word v).1.testBit i = word.testBit i) ∧
    (NewUIntBitField 4 11 255 = (⟨4, 11, 255, 255⟩, none) ∧
      (UIntBitField.mk 4 11 255 255).UpdateUnchecked 0xFF00FF 0xAB = 0xFF0ABF) := by
  refine ⟨?_, ?_, by decide, by decide⟩
  · intro start end_ max bf word v i h hw hi
    obtain ⟨h1, h2, -, rfl⟩ := NewUIntBitField_ok h
    have hf := uint_frame max h1 h2 word v i hi (Or.inr hw)
    refine ⟨hf, ?_⟩
    rcases uint_update_cases ⟨start, end_, max, 2 ^ (end_ - start + 1) - 1⟩ word v with hc | hc
    · rw [hc]
    · rw [hc, hf]
  · intro start end_ min max bf word v i h hw hi
    obtain ⟨h1, h2, -, -, -, rfl⟩ := NewIntBitField_ok h
    have hf := int_frame min max h1 h2 word v i hi (Or.inr hw)
    refine ⟨hf, ?_⟩
    rcases int_update_cases ⟨start, end_, min, max, 2 ^ (end_ - start + 1) - 1⟩ word v
      with hc | hc
    · rw [hc]
    · rw [hc, hf]

theorem C3_update_frame_witness :
    NewIntBitField 8 15 (-128) 127 = (⟨8, 15, -128, 127, 255⟩, none) ∧
      0xFF00FF < 2 ^ 64 ∧
      ((IntBitField.mk 8 15 (-128) 127 255).UpdateUnchecked 0xFF00FF (-1)).testBit 16 =
        (0xFF00FF).testBit 16 ∧
      ((IntBitField.mk 8 15 (-128) 127 255).Update 0xFF00FF (-1)).1.testBit 16 =
        (0xFF00FF).testBit 16 :=
  ⟨by decide, by decide,
    C3_update_frame.2.1 8 15 (-128) 127 ⟨8, 15, -128, 127, 255⟩ 0xFF00FF (-1) 16
      (by decide) (by decide) (Or.inr (by decide))⟩

/-! ## Reads of a field only depend on the field's bits -/

theorem uint_reads_agree {sB eB mB : Nat} {B : UIntBitField}
    (hB : NewUIntBitField sB eB mB = (B, none)) (word w' : Nat)
    (h : ∀ i, B.Start ≤ i → i ≤ B.End → w'.testBit i = word.testBit i) :
    B.Get w' = B.Get word := by
  obtain ⟨h1, h2, -, rfl⟩ := NewUIntBitField_ok hB
  unfold UIntBitField.Get
  exact extract_congr _ _ _ _ (fun i hi1 hi2 => h i hi1 (by simp only at hi1 hi2 ⊢; omega))

theorem int_reads_agree {sB eB : Nat} {mnB mxB : Int} {B : IntBitField}
    (hB : NewIntBitField sB eB mnB mxB = (B, none)) (word w' : Nat)
    (h : ∀ i, B.Start ≤ i → i ≤ B.End → w'.testBit i = word.testBit i) :
    B.Get w' = B.Get word := by
  obtain ⟨h1, h2, -, -, -, rfl⟩ := NewIntBitField_ok hB
  apply int_get_congr
  exact extract_congr _ _ _ _ (fun i hi1 hi2 => h i hi1 (by simp only at hi1 hi2 ⊢; omega))

theorem bool_reads_agree {pB : Nat} {B : BoolBitField}
    (hB : NewBoolBitField pB = (B, none)) (word w' : Nat)
    (h : w'.testBit B.Position = word.testBit B.Position) :
    B.Get w' = B.Get word := by
  obtain ⟨-, rfl⟩ := NewBoolBitField_ok hB
  rw [bool_get_eq, bool_get_eq]
  exact h

/-- A word that agrees with `word` below bit 64 outside `[lo, hi]` gives every valid field
disjoint from `[lo, hi]` the value it has in `word`. -/
theorem reads_agree_of_frame (lo hi word w' : Nat)
    (hfr : ∀ i, i < 64 → (i < lo ∨ hi < i) → w'.testBit i = word.testBit i) :
    (∀ (sB eB mB : Nat) (B : UIntBitField), NewUIntBitField sB eB mB = (B, none) →
      (hi < B.Start ∨ B.End < lo) → B.Get w' = B.Get word) ∧
    (∀ (sB eB : Nat) (mnB mxB : Int) (B : IntBitField),
      NewIntBitField sB eB mnB mxB = (B, none) →
      (hi < B.Start ∨ B.End < lo) → B.Get w' = B.Get word) ∧
    (∀ (pB : Nat) (B : BoolBitField), NewBoolBitField pB = (B, none) →
      (hi < B.Position ∨ B.Position < lo) → B.Get w' = B.Get word) := by
  refine ⟨?_, ?_, ?_⟩
  · intro sB eB mB B hB hd
    refine uint_reads_agree hB word w' (fun i hi1 hi2 => hfr i ?_ ?_)
    · obtain ⟨-, h2, -, rfl⟩ := NewUIntBitField_ok hB
      simp only at hi2
      omega
    · omega
  · intro sB eB mnB mxB B hB hd
    refine int_reads_agree hB word w' (fun i hi1 hi2 => hfr i ?_ ?_)
    · obtain ⟨-, h2, -, -, -, rfl⟩ := NewIntBitField_ok hB
      simp only at hi2
      omega
    · omega
  · intro pB B hB hd
    refine bool_reads_agree hB word w' (hfr _ ?_ ?_)
    · obtain ⟨h2, rfl⟩ := NewBoolBitField_ok hB
      simp only
      omega
    · omega

theorem uint_update_frame {sA eA mA : Nat} {A : UIntBitField}
    (hA : NewUIntBitField sA eA mA = (A, none)) (word v w' : Nat)
    (hw : w' = A.UpdateUnchecked word v ∨ w' = (A.Update word v).1) (i : Nat) (h64 : i < 64)
    (hi : i < A.Start ∨ A.End < i) : w'.testBit i = word.testBit i := by
  obtain ⟨h1, h2, -, rfl⟩ := NewUIntBitField_ok hA
  have hf := uint_frame mA h1 h2 word v i hi (Or.inl h64)
  rcases hw with rfl | rfl
  · exact hf
  · rcases uint_update_cases ⟨sA, eA, mA, 2 ^ (eA - sA + 1) - 1⟩ word v with hc | hc
    · rw [hc]
    · rw [hc, hf]

theorem int_update_frame {sA eA : Nat} {mnA mxA : Int} {A : IntBitField}
    (hA : NewIntBitField sA eA mnA mxA = (A, none)) (word : Nat) (v : Int) (w' : Nat)
    (hw : w' = A.UpdateUnchecked word v ∨ w' = (A.Update word v).1) (i : Nat) (h64 : i < 64)
    (hi : i < A.Start ∨ A.End < i) : w'.testBit i = word.testBit i := by
  obtain ⟨h1, h2, -, -, -, rfl⟩ := NewIntBitField_ok hA
  have hf := int_frame mnA mxA h1 h2 word v i hi (Or.inl h64)
  rcases hw with rfl | rfl
  · exact hf
  · rcases int_update_cases ⟨sA, eA, mnA, mxA, 2 ^ (eA - sA + 1) - 1⟩ word v with hc | hc
    · rw [hc]
    · rw [hc, hf]

theorem bool_update_frame {pA : Nat} {A : BoolBitField}
    (hA : NewBoolBitField pA = (A, none)) (word : Nat) (b : Bool) (w' : Nat)
    (hw : w' = A.UpdateUnchecked word b ∨ w' = (A.Update word b).1 ∨ w' = A.Set word ∨
      w' = A.Clear word ∨ w' = A.Toggle word) (i : Nat) (h64 : i < 64)
    (hi : i < A.Position ∨ A.Position < i) : w'.testBit i = word.testBit i := by
  obtain ⟨h2, rfl⟩ := NewBoolBitField_ok hA
  simp only at hi
  have hne : ¬ pA = i := by omega
  have hset : (word ||| 2 ^ pA).testBit i = word.testBit i := by
    rw [testBit_bool_set]; simp [hne]
  have hclr : (word &&& not64 (2 ^ pA)).testBit i = word.testBit i := by
    rw [testBit_bool_clear _ _ _ h2]; simp [hne, h64]
  have hupd : ((BoolBitField.mk pA (2 ^ pA)).UpdateUnchecked word b).testBit i =
      word.testBit i := by
    unfold BoolBitField.UpdateUnchecked
    cases b
    · simpa using hclr
    · simpa using hset
  rcases hw with rfl | rfl | rfl | rfl | rfl
  · exact hupd
  · exact hupd
  · exact hset
  · exact hclr
  · unfold BoolBitField.Toggle
    rw [testBit_bool_toggle]; simp [hne]

/-! ## Non-interference -/

/-- C4: for any two validly constructed field descriptors `A` and `B` (unsigned, signed or
boolean, in any combination) with disjoint bit ranges, any word and any value, `B.Get` of the
word that `A`'s update returns (`UpdateUnchecked`, `Update`, and for a boolean `A` also `Set`,
`Clear`, `Toggle`) equals `B.Get` of the original word. -/
theorem C4_non_interference (word : Nat) :
    (∀ (sA eA mA : Nat) (A : UIntBitField) (v w' : Nat),
      NewUIntBitField sA eA mA = (A, none) →
      (w' = A.UpdateUnchecked word v ∨ w' = (A.Update word v).1) →
        (∀ (sB eB mB : Nat) (B : UIntBitField), NewUIntBitField sB eB mB = (B, none) →
          (A.End < B.Start ∨ B.End < A.Start) → B.Get w' = B.Get word) ∧
        (∀ (sB eB : Nat) (mnB mxB : Int) (B : IntBitField),
          NewIntBitField sB eB mnB mxB = (B, none) →
          (A.End < B.Start ∨ B.End < A.Start) → B.Get w' = B.Get word) ∧
        (∀ (pB : Nat) (B : BoolBitField), NewBoolBitField pB = (B, none) →
          (A.End < B.Position ∨ B.Position < A.Start) → B.Get w' = B.Get word)) ∧
    (∀ (sA eA : Nat) (mnA mxA : Int) (A : IntBitField) (v : Int) (w' : Nat),
      NewIntBitField sA eA mnA mxA = (A, none) →
      (w' = A.UpdateUnchecked word v ∨ w' = (A.Update word v).1) →
        (∀ (sB eB mB : Nat) (B : UIntBitField), NewUIntBitField sB eB mB = (B, none) →
          (A.End < B.Start ∨ B.End < A.Start) → B.Get w' = B.Get word) ∧
        (∀ (sB eB : Nat) (mnB mxB : Int) (B : IntBitField),
          NewIntBitField sB eB mnB mxB = (B, none) →
          (A.End < B.Start ∨ B.End < A.Start) → B.Get w' = B.Get word) ∧
        (∀ (pB : Nat) (B : BoolBitField), NewBoolBitField pB = (B, none) →
          (A.End < B.Position ∨ B.Position < A.Start) → B.Get w' = B.Get word)) ∧
    (∀ (pA : Nat) (A : BoolBitField) (b : Bool) (w' : Nat),
      NewBoolBitField pA = (A, none) →
      (w' = A.UpdateUnchecked word b ∨ w' = (A.Update word b).1 ∨ w' = A.Set word ∨
        w' = A.Clear word ∨ w' = A.Toggle word) →
        (∀ (sB eB mB : Nat) (B : UIntBitField), NewUIntBitField sB eB mB = (B, none) →
          (A.Position < B.Start ∨ B.End < A.Position) → B.Get w' = B.Get word) ∧
        (∀ (sB eB : Nat) (mnB mxB : Int) (B : IntBitField),
          NewIntBitField sB eB mnB mxB = (B, none) →
          (A.Position < B.Start ∨ B.End < A.Position) → B.Get w' = B.Get word) ∧
        (∀ (pB : Nat) (B : BoolBitField), NewBoolBitField pB = (B, none) →
          (A.Position < B.Position ∨ B.Position < A.Position) → B.Get w' = B.Get word)) := by
  refine ⟨?_, ?_, ?_⟩
  · intro sA eA mA A v w' hA hw
    exact reads_agree_of_frame A.Start A.End word w'
      (fun i h64 hi => uint_update_frame hA word v w' hw i h64 hi)
  · intro sA eA mnA mxA A v w' hA hw
    exact reads_agree_of_frame A.Start A.End word w'
      (fun i h64 hi => int_update_frame hA word v w' hw i h64 hi)
  · intro pA A b w' hA hw
    exact reads_agree_of_frame A.Position A.Position word w'
      (fun i h64 hi => bool_update_frame hA word b w' hw i h64 hi)

theorem C4_non_interference_witness :
    NewIntBitField 0 7 (-50) 100 = (⟨0, 7, -50, 100, 255⟩, none) ∧
      NewUIntBitField 8 15 100 = (⟨8, 15, 100, 255⟩, none) ∧
      (UIntBitField.mk 8 15 100 255).Get 0x41FB = 65 ∧
      (UIntBitField.mk 8 15 100 255).Get
        ((IntBitField.mk 0 7 (-50) 100 255).Update 0x41FB 25).1 =
        (UIntBitField.mk 8 15 100 255).Get 0x41FB :=
  ⟨by decide, by decide, by decide,
    ((C4_non_interference 0x41FB).2.1 0 7 (-50) 100 ⟨0, 7, -50, 100, 255⟩ 25 _
      (by decide) (Or.inr rfl)).1 8 15 100 ⟨8, 15, 100, 255⟩ (by decide) (Or.inl (by decide))⟩

/-! ## Sign extension and two's-complement encoding -/

theorem two_pow_cast (n : Nat) : ((2 ^ n : Nat) : Int) = (2 : Int) ^ n := by
  push_cast
  rfl

/-- When `NewIntBitField` succeeds: valid positions and a range inside the width's range. -/
theorem NewIntBitField_eq_ok {s e : Nat} (mn mx : Int) (h1 : s ≤ e) (h2 : e ≤ 63)
    (h3 : -2 ^ (e - s) ≤ mn) (h4 : mx ≤ 2 ^ (e - s) - 1) (h5 : mn ≤ mx) :
    NewIntBitField s e mn mx =
      ({ Start := s, End := e, Min := mn, Max := mx, mask := 2 ^ (e - s + 1) - 1 }, none) := by
  unfold NewIntBitField
  rw [if_neg (by omega), if_neg (by omega)]
  simp only [width_eq h1 h2]
  rw [intRangeForWidth_eq (by omega) (by omega), computeMask_eq (by omega)]
  simp only [Nat.add_sub_cancel]
  rw [if_neg (by omega), if_neg (by omega)]

/-- C5: for every validly constructed signed field of width `w` and every word, with
`raw = (word >> Start) mod 2^w`, `Get word` is `raw` when `raw < 2^(w-1)` and `raw - 2^w`
otherwise; for `w = 64` this is the word read as a signed 64-bit integer. -/
theorem C5_sign_extension (start end_ : Nat) (min max : Int) (bf : IntBitField) (word : Nat)
    (h : NewIntBitField start end_ min max = (bf, none)) :
    (bf.Get word =
      if shr64 word bf.Start % 2 ^ bf.Width < 2 ^ (bf.Width - 1)
      then ((shr64 word bf.Start % 2 ^ bf.Width : Nat) : Int)
      else ((shr64 word bf.Start % 2 ^ bf.Width : Nat) : Int) - 2 ^ bf.Width) ∧
    (bf.Width = 64 → bf.Get word = toInt64 word) := by
  obtain ⟨h1, h2, -, -, -, rfl⟩ := NewIntBitField_ok h
  have hw : (IntBitField.mk start end_ min max (2 ^ (end_ - start + 1) - 1)).Width =
      end_ - start + 1 := by
    unfold IntBitField.Width
    exact width_eq h1 h2
  rw [hw, int_get_eq h1 h2]
  simp only [Nat.add_sub_cancel, true_and]
  intro h64
  have hs : start = 0 := by omega
  subst hs
  rw [h64, show end_ - 0 = 63 by omega]
  unfold toInt64 shr64
  rw [Nat.shiftRight_zero]

theorem C5_sign_extension_witness :
    NewIntBitField 8 15 (-128) 127 = (⟨8, 15, -128, 127, 255⟩, none) ∧
      (IntBitField.mk 8 15 (-128) 127 255).Width = 8 ∧
      shr64 0xFFD6FF 8 % 2 ^ 8 = 214 ∧
      (IntBitField.mk 8 15 (-128) 127 255).Get 0xFFD6FF = 214 - 2 ^ 8 :=
  ⟨by decide, by decide, by decide,
    (C5_sign_extension 8 15 (-128) 127 ⟨8, 15, -128, 127, 255⟩ 0xFFD6FF (by decide)).1⟩

/-- C6: for every width `w` in `[1,64]` the full-range signed field of that width (at any
start that fits) is accepted, and it decodes the field pattern with only the top bit set to
`-2^(w-1)`, the all-ones pattern to `-1`, and the pattern with the top bit clear and all
lower bits set to `2^(w-1) - 1`. -/
theorem C6_sign_extension_boundaries (w start : Nat) (bf : IntBitField) (hw : 1 ≤ w)
    (hfit : start + w ≤ 64)
    (hbf : bf = (NewIntBitField start (start + w - 1) (intRangeForWidth w).1
      (intRangeForWidth w).2).1) :
    (NewIntBitField start (start + w - 1) (intRangeForWidth w).1 (intRangeForWidth w).2).2 = none
    ∧ NewIntBitFieldAuto start (start + w - 1) = (bf, none)
    ∧ bf.Width = w ∧ bf.Min = -2 ^ (w - 1) ∧ bf.Max = 2 ^ (w - 1) - 1
    ∧ ∀ word : Nat,
      (shr64 word start % 2 ^ w = 2 ^ (w - 1) → bf.Get word = -2 ^ (w - 1)) ∧
      (shr64 word start % 2 ^ w = 2 ^ w - 1 → bf.Get word = -1) ∧
      (shr64 word start % 2 ^ w = 2 ^ (w - 1) - 1 → bf.Get word = 2 ^ (w - 1) - 1) := by
  have h1 : start ≤ start + w - 1 := by omega
  have h2 : start + w - 1 ≤ 63 := by omega
  have he : start + w - 1 - start = w - 1 := by omega
  have hw' : w - 1 + 1 = w := by omega
  have hP : (0 : Int) < 2 ^ (w - 1) := by positivity
  have hok := NewIntBitField_eq_ok (-2 ^ (w - 1)) (2 ^ (w - 1) - 1) h1 h2
    (by rw [he]) (by rw [he]) (by omega)
  rw [he, hw'] at hok
  have hauto : NewIntBitFieldAuto start (start + w - 1) =
      NewIntBitField start (start + w - 1) (intRangeForWidth w).1 (intRangeForWidth w).2 := by
    unfold NewIntBitFieldAuto
    simp only [width_eq h1 h2, he, hw']
  rw [hauto]
  rw [intRangeForWidth_eq hw (by omega)] at hbf ⊢
  simp only at hbf ⊢
  rw [hok] at hbf ⊢
  simp only at hbf
  subst hbf
  have hwd : (IntBitField.mk start (start + w - 1) (-2 ^ (w - 1)) (2 ^ (w - 1) - 1)
      (2 ^ w - 1)).Width = w := by
    unfold IntBitField.Width
    simp only [width_eq h1 h2, he, hw']
  refine ⟨rfl, rfl, hwd, rfl, rfl, ?_⟩
  intro word
  have hget := int_get_eq h1 h2 (-2 ^ (w - 1)) (2 ^ (w - 1) - 1) word
  rw [he, hw'] at hget
  rw [hget]
  have hN : 0 < 2 ^ (w - 1) := Nat.pos_pow_of_pos _ (by norm_num)
  have hN2 : 2 ^ w = 2 * 2 ^ (w - 1) := by
    conv_lhs => rw [← hw']
    rw [Nat.pow_succ]; omega
  have hZ2 : (2 : Int) ^ w = 2 * 2 ^ (w - 1) := by
    rw [← two_pow_cast, ← two_pow_cast, hN2]; push_cast; ring
  refine ⟨?_, ?_, ?_⟩
  · intro hr
    rw [hr, if_neg (by omega), two_pow_cast, hZ2]
    ring
  · intro hr
    rw [hr, if_neg (by omega), hN2]
    rw [hZ2, ← two_pow_cast]
    omega
  · intro hr
    rw [hr, if_pos (by omega), ← two_pow_cast]
    omega

theorem C6_sign_extension_boundaries_witness :
    (1 ≤ 4 ∧ 0 + 4 ≤ 64) ∧
      shr64 0b1000 0 % 2 ^ 4 = 2 ^ (4 - 1) ∧
      (NewIntBitField 0 (0 + 4 - 1) (intRangeForWidth 4).1 (intRangeForWidth 4).2).1.Get 0b1000
        = -2 ^ (4 - 1) :=
  ⟨by decide, by decide,
    ((C6_sign_extension_boundaries 4 0 _ (by decide) (by decide) rfl).2.2.2.2.2 0b1000).1
      (by decide)⟩

/-- C7: for every validly constructed signed field of width `w`, every word and every value
`v`, the bits `UpdateUnchecked word v` holds in positions `[Start, End]` are `v mod 2^w`, the
low `w` bits of the two's-complement pattern of `v`; the 4-bit field at `[0,3]` storing `-3`
into word `0` yields `0b1101`. -/
theorem C7_twos_complement_encoding (start end_ : Nat) (min max : Int) (bf : IntBitField)
    (word : Nat) (v : Int) (h : NewIntBitField start end_ min max = (bf, none)) :
    shr64 (bf.UpdateUnchecked word v) bf.Start % 2 ^ bf.Width = toUint64 v % 2 ^ bf.Width ∧
    ((shr64 (bf.UpdateUnchecked word v) bf.Start % 2 ^ bf.Width : Nat) : Int) =
      v % 2 ^ bf.Width ∧
    (NewIntBitField 0 3 (-8) 7 = (⟨0, 3, -8, 7, 15⟩, none) ∧
      (IntBitField.mk 0 3 (-8) 7 15).UpdateUnchecked 0 (-3) = 0b1101 ∧
      (IntBitField.mk 0 3 (-8) 7 15).Get 0b1101 = -3) := by
  obtain ⟨h1, h2, -, -, -, rfl⟩ := NewIntBitField_ok h
  have hw : (IntBitField.mk start end_ min max (2 ^ (end_ - start + 1) - 1)).Width =
      end_ - start + 1 := by
    unfold IntBitField.Width
    exact width_eq h1 h2
  have hx : shr64 ((IntBitField.mk start end_ min max
      (2 ^ (end_ - start + 1) - 1)).UpdateUnchecked word v) start
      % 2 ^ (end_ - start + 1) = toUint64 v % 2 ^ (end_ - start + 1) := by
    rw [← Nat.and_pow_two_sub_one_eq_mod]
    unfold IntBitField.UpdateUnchecked
    simp only
    rw [extract_updateCore _ _ _ _ (by omega)]
  rw [hw]
  simp only
  refine ⟨hx, ?_, by decide, by decide, by decide⟩
  rw [hx]
  exact toUint64_mod_cast v (by omega)

theorem C7_twos_complement_encoding_witness :
    NewIntBitField 8 15 (-128) 127 = (⟨8, 15, -128, 127, 255⟩, none) ∧
      shr64 ((IntBitField.mk 8 15 (-128) 127 255).UpdateUnchecked 0xFF00FF (-42)) 8 % 2 ^ 8 =
        0xD6 ∧
      shr64 ((IntBitField.mk 8 15 (-128) 127 255).UpdateUnchecked 0xFF00FF (-42))
          (IntBitField.mk 8 15 (-128) 127 255).Start
          % 2 ^ (IntBitField.mk 8 15 (-128) 127 255).Width =
        toUint64 (-42) % 2 ^ (IntBitField.mk 8 15 (-128) 127 255).Width :=
  ⟨by decide, by decide,
    (C7_twos_complement_encoding 8 15 (-128) 127 ⟨8, 15, -128, 127, 255⟩ 0xFF00FF (-42)
      (by decide)).1⟩

/-! ## Constructors -/

/-- C8: `NewUIntBitField start end max` succeeds exactly when `start ≤ end`, `end ≤ 63` and
`max ≤ 2^(end-start+1) - 1`; otherwise the error kind is `StartAfterEnd` if `start > end`
(also when `end ≥ 64`), else `EndOutOfRange` if `end ≥ 64`, else `ValueOverflow`. -/
theorem C8_new_uint_errors (start end_ max : Nat) :
    ((NewUIntBitField start end_ max).2 = none ↔
      (start ≤ end_ ∧ end_ ≤ 63 ∧ max ≤ 2 ^ (end_ - start + 1) - 1)) ∧
    (start > end_ →
      (NewUIntBitField start end_ max).2.map Error.Kind = some .KindStartAfterEnd) ∧
    (start ≤ end_ → end_ ≥ 64 →
      (NewUIntBitField start end_ max).2.map Error.Kind = some .KindEndOutOfRange) ∧
    (start ≤ end_ → end_ ≤ 63 → max > 2 ^ (end_ - start + 1) - 1 →
      (NewUIntBitField start end_ max).2.map Error.Kind = some .KindValueOverflow) := by
  have hA : start > end_ →
      (NewUIntBitField start end_ max).2.map Error.Kind = some .KindStartAfterEnd := by
    intro h
    unfold NewUIntBitField
    rw [if_pos h]
    rfl
  have hB : start ≤ end_ → end_ ≥ 64 →
      (NewUIntBitField start end_ max).2.map Error.Kind = some .KindEndOutOfRange := by
    intro h1 h2
    unfold NewUIntBitField
    rw [if_neg (by omega), if_pos h2]
    rfl
  have hC : start ≤ end_ → end_ ≤ 63 → max > 2 ^ (end_ - start + 1) - 1 →
      (NewUIntBitField start end_ max).2.map Error.Kind = some .KindValueOverflow := by
    intro h1 h2 h3
    unfold NewUIntBitField
    rw [if_neg (by omega), if_neg (by omega)]
    simp only [width_eq h1 h2]
    rw [maxAllowedForWidth_eq (by omega), if_pos h3]
    rfl
  refine ⟨⟨?_, ?_⟩, hA, hB, hC⟩
  · intro hnone
    by_cases h1 : start > end_
    · have := hA h1
      rw [hnone] at this
      simp at this
    by_cases h2 : end_ ≥ 64
    · have := hB (by omega) h2
      rw [hnone] at this
      simp at this
    by_cases h3 : max > 2 ^ (end_ - start + 1) - 1
    · have := hC (by omega) (by omega) h3
      rw [hnone] at this
      simp at this
    exact ⟨by omega, by omega, by omega⟩
  · rintro ⟨h1, h2, h3⟩
    unfold NewUIntBitField
    rw [if_neg (by omega), if_neg (by omega)]
    simp only [width_eq h1 h2]
    rw [maxAllowedForWidth_eq (by omega), if_neg (by omega)]

theorem C8_new_uint_errors_witness :
    (10 > 5 ∧ (NewUIntBitField 10 5 100).2.map Error.Kind = some .KindStartAfterEnd) ∧
    (70 > 64 ∧ (NewUIntBitField 70 64 100).2.map Error.Kind = some .KindStartAfterEnd) ∧
    (60 ≤ 64 ∧ 64 ≥ 64 ∧
      (NewUIntBitField 60 64 100).2.map Error.Kind = some .KindEndOutOfRange) ∧
    (0 ≤ 3 ∧ 3 ≤ 63 ∧ 16 > 2 ^ (3 - 0 + 1) - 1 ∧
      (NewUIntBitField 0 3 16).2.map Error.Kind = some .KindValueOverflow) :=
  ⟨⟨by decide, (C8_new_uint_errors 10 5 100).2.1 (by decide)⟩,
    ⟨by decide, (C8_new_uint_errors 70 64 100).2.1 (by decide)⟩,
    ⟨by decide, by decide, (C8_new_uint_errors 60 64 100).2.2.1 (by decide) (by decide)⟩,
    ⟨by decide, by decide, by decide,
      (C8_new_uint_errors 0 3 16).2.2.2 (by decide) (by decide) (by decide)⟩⟩

/-- C9: a descriptor returned without error by `NewUIntBitField start end max` has
`Start = start`, `End = end`, `Max = max`, `Start ≤ End ≤ 63`, `Width = End - Start + 1` in
`[1,64]`, the cached mask `computeMask Width = 2^Width - 1` (all 64 ones for width 64), and
`Max ≤ mask`. -/
theorem C9_new_uint_invariants (start end_ max : Nat) (bf : UIntBitField)
    (h : NewUIntBitField start end_ max = (bf, none)) :
    bf.Start = start ∧ bf.End = end_ ∧ bf.Max = max ∧ bf.Start ≤ bf.End ∧ bf.End ≤ 63 ∧
    bf.Width = bf.End - bf.Start + 1 ∧ 1 ≤ bf.Width ∧ bf.Width ≤ 64 ∧
    bf.mask = computeMask bf.Width ∧ bf.mask = 2 ^ bf.Width - 1 ∧
    (bf.Width = 64 → bf.mask = 18446744073709551615) ∧ bf.Max ≤ bf.mask := by
  obtain ⟨h1, h2, h3, rfl⟩ := NewUIntBitField_ok h
  have hw : (UIntBitField.mk start end_ max (2 ^ (end_ - start + 1) - 1)).Width =
      end_ - start + 1 := by
    unfold UIntBitField.Width
    exact width_eq h1 h2
  rw [hw, computeMask_eq (by omega)]
  refine ⟨rfl, rfl, rfl, h1, h2, rfl, by omega, by omega, rfl, rfl, ?_, h3⟩
  intro h64
  rw [h64]
  rfl

theorem C9_new_uint_invariants_witness :
    NewUIntBitField 0 63 1000 = (⟨0, 63, 1000, 18446744073709551615⟩, none) ∧
      (UIntBitField.mk 0 63 1000 18446744073709551615).Width = 64 ∧
      (UIntBitField.mk 0 63 1000 18446744073709551615).mask =
        2 ^ (UIntBitField.mk 0 63 1000 18446744073709551615).Width - 1 :=
  ⟨by decide, by decide,
    (C9_new_uint_invariants 0 63 1000 ⟨0, 63, 1000, 18446744073709551615⟩
      (by decide)).2.2.2.2.2.2.2.2.2.1⟩

/-- C10: for positions with `start ≤ end ≤ 63` and `w = end - start + 1`, `NewIntBitField`
fails with kind `ValueUnderflow` if `min < -2^(w-1)`; otherwise with kind `ValueOverflow` if
`max > 2^(w-1) - 1`; otherwise with kind `ValueRangeInverted` if `min > max`; otherwise it
succeeds. The position errors (`StartAfterEnd`, then `EndOutOfRange`) come before these. -/
theorem C10_new_int_errors (start end_ : Nat) (min max : Int) :
    (start ≤ end_ → end_ ≤ 63 →
      (min < -2 ^ (end_ - start + 1 - 1) →
        (NewIntBitField start end_ min max).2.map Error.Kind = some .KindValueUnderflow) ∧
      (-2 ^ (end_ - start + 1 - 1) ≤ min → max > 2 ^ (end_ - start + 1 - 1) - 1 →
        (NewIntBitField start end_ min max).2.map Error.Kind = some .KindValueOverflow) ∧
      (-2 ^ (end_ - start + 1 - 1) ≤ min → max ≤ 2 ^ (end_ - start + 1 - 1) - 1 → min > max →
        (NewIntBitField start end_ min max).2.map Error.Kind = some .KindValueRangeInverted) ∧
      (-2 ^ (end_ - start + 1 - 1) ≤ min → max ≤ 2 ^ (end_ - start + 1 - 1) - 1 → min ≤ max →
        (NewIntBitField start end_ min max).2 = none)) ∧
    (start > end_ →
      (NewIntBitField start end_ min max).2.map Error.Kind = some .KindStartAfterEnd) ∧
    (start ≤ end_ → end_ ≥ 64 →
      (NewIntBitField start end_ min max).2.map Error.Kind = some .KindEndOutOfRange) := by
  refine ⟨?_, ?_, ?_⟩
  · intro h1 h2
    simp only [Nat.add_sub_cancel]
    have hunf : NewIntBitField start end_ min max =
        if min < -2 ^ (end_ - start) ∨ max > 2 ^ (end_ - start) - 1 then
          (IntBitField.zero, some (newValueOutOfRangeError min max (-2 ^ (end_ - start))
            (2 ^ (end_ - start) - 1) (end_ - start + 1)))
        else if min > max then (IntBitField.zero, some (newValueRangeInvertedError min max))
        else ({ Start := start, End := end_, Min := min, Max := max,
                mask := computeMask (end_ - start + 1) }, none) := by
      unfold NewIntBitField
      rw [if_neg (by omega), if_neg (by omega)]
      simp only [width_eq h1 h2]
      rw [intRangeForWidth_eq (by omega) (by omega)]
      simp only [Nat.add_sub_cancel]
    rw [hunf]
    refine ⟨?_, ?_, ?_, ?_⟩
    · intro hlo
      rw [if_pos (Or.inl hlo)]
      unfold newValueOutOfRangeError
      simp only [Option.map_some', if_pos hlo]
    · intro hlo hhi
      rw [if_pos (Or.inr hhi)]
      unfold newValueOutOfRangeError
      simp only [Option.map_some', if_neg (not_lt.mpr hlo)]
    · intro hlo hhi hinv
      rw [if_neg (by omega), if_pos hinv]
      rfl
    · intro hlo hhi hle
      rw [if_neg (by omega), if_neg (by omega)]
  · intro h
    unfold NewIntBitField
    rw [if_pos h]
    rfl
  · intro h1 h2
    unfold NewIntBitField
    rw [if_neg (by omega), if_pos h2]
    rfl

theorem C10_new_int_errors_witness :
    ((0 : Nat) ≤ 3 ∧ 3 ≤ 63 ∧ (-9 : Int) < -2 ^ (3 - 0 + 1 - 1) ∧
      (NewIntBitField 0 3 (-9) 7).2.map Error.Kind = some .KindValueUnderflow) ∧
    ((-8 : Int) ≤ -8 ∧ (8 : Int) > 2 ^ (3 - 0 + 1 - 1) - 1 ∧
      (NewIntBitField 0 3 (-8) 8).2.map Error.Kind = some .KindValueOverflow) ∧
    ((5 : Int) > 3 ∧
      (NewIntBitField 0 3 5 3).2.map Error.Kind = some .KindValueRangeInverted) ∧
    (NewIntBitField 0 3 (-8) 7).2 = none ∧
    (10 > 5 ∧ (NewIntBitField 10 5 (-1000) 1000).2.map Error.Kind = some .KindStartAfterEnd) ∧
    (64 ≥ 64 ∧ (NewIntBitField 60 64 (-1000) 1000).2.map Error.Kind = some .KindEndOutOfRange) :=
  ⟨⟨by decide, by decide, by decide,
      ((C10_new_int_errors 0 3 (-9) 7).1 (by decide) (by decide)).1 (by decide)⟩,
    ⟨by decide, by decide,
      ((C10_new_int_errors 0 3 (-8) 8).1 (by decide) (by decide)).2.1 (by decide) (by decide)⟩,
    ⟨by decide,
      ((C10_new_int_errors 0 3 5 3).1 (by decide) (by decide)).2.2.1 (by decide) (by decide)
        (by decide)⟩,
    ((C10_new_int_errors 0 3 (-8) 7).1 (by decide) (by decide)).2.2.2 (by decide) (by decide)
      (by decide),
    ⟨by decide, (C10_new_int_errors 10 5 (-1000) 1000).2.1 (by decide)⟩,
    ⟨by decide, (C10_new_int_errors 60 64 (-1000) 1000).2.2 (by decide) (by decide)⟩⟩

/-- C11: with valid positions and a `max` that fits the width, a `min` below the smallest
value of the width makes `NewIntBitField` return kind `ValueUnderflow`, not the
`ValueOverflow` the tests expect: evaluated on the tests' cases, the 4-bit field `[0,3]`
with `min = -9, max = 7` and with `min = -10, max = 7`. -/
theorem C11_min_below_width_kind :
    (NewIntBitField 0 3 (-9) 7).2.map Error.Kind = some ErrorKind.KindValueUnderflow ∧
    (NewIntBitField 0 3 (-10) 7).2.map Error.Kind = some ErrorKind.KindValueUnderflow ∧
    (NewIntBitField 0 3 (-9) 7).2.map Error.Kind ≠ some ErrorKind.KindValueOverflow ∧
    (NewIntBitField 0 3 (-10) 7).2.map Error.Kind ≠ some ErrorKind.KindValueOverflow := by
  decide

/-- C12: a descriptor returned without error by `NewIntBitField start end min max` has
`Start ≤ End ≤ 63`, the cached mask `computeMask Width = 2^Width - 1` (all 64 ones for width
64), `Min = min`, `Max = max`, `Min ≤ Max`, and `Min` and `Max` both in
`[-2^(Width-1), 2^(Width-1) - 1]`. -/
theorem C12_new_int_invariants (start end_ : Nat) (min max : Int) (bf : IntBitField)
    (h : NewIntBitField start end_ min max = (bf, none)) :
    bf.Start = start ∧ bf.End = end_ ∧ bf.Start ≤ bf.End ∧ bf.End ≤ 63 ∧
    bf.mask = computeMask bf.Width ∧ bf.mask = 2 ^ bf.Width - 1 ∧
    (bf.Width = 64 → bf.mask = 18446744073709551615) ∧
    bf.Min = min ∧ bf.Max = max ∧ bf.Min ≤ bf.Max ∧
    -2 ^ (bf.Width - 1) ≤ bf.Min ∧ bf.Min ≤ 2 ^ (bf.Width - 1) - 1 ∧
    -2 ^ (bf.Width - 1) ≤ bf.Max ∧ bf.Max ≤ 2 ^ (bf.Width - 1) - 1 := by
  obtain ⟨h1, h2, hlo, hle, hhi, rfl⟩ := NewIntBitField_ok h
  have hw : (IntBitField.mk start end_ min max (2 ^ (end_ - start + 1) - 1)).Width =
      end_ - start + 1 := by
    unfold IntBitField.Width
    exact width_eq h1 h2
  rw [hw, computeMask_eq (by omega), Nat.add_sub_cancel]
  refine ⟨rfl, rfl, h1, h2, rfl, rfl, ?_, rfl, rfl, hle, hlo, ?_, ?_, hhi⟩
  · intro h64
    rw [h64]
    rfl
  · exact le_trans hle hhi
  · exact le_trans hlo hle

theorem C12_new_int_invariants_witness :
    NewIntBitField 8 15 (-50) 100 = (⟨8, 15, -50, 100, 255⟩, none) ∧
      (IntBitField.mk 8 15 (-50) 100 255).Width = 8 ∧
      (IntBitField.mk 8 15 (-50) 100 255).mask =
        2 ^ (IntBitField.mk 8 15 (-50) 100 255).Width - 1 :=
  ⟨by decide, by decide,
    (C12_new_int_invariants 8 15 (-50) 100 ⟨8, 15, -50, 100, 255⟩ (by decide)).2.2.2.2.2.1⟩

/-! ## Checked updates -/

/-- C13: `UIntBitField.Update word value` returns an error exactly when `value > Max`; the
error has kind `ValueOverflow` and comes with the input word unchanged; when `value ≤ Max`
the result is `UpdateUnchecked word value` with a nil error. -/
theorem C13_uint_update (bf : UIntBitField) (word value : Nat) :
    ((bf.Update word value).2 ≠ none ↔ value > bf.Max) ∧
    (value > bf.Max →
      (bf.Update word value).2.map Error.Kind = some ErrorKind.KindValueOverflow ∧
      (bf.Update word value).1 = word) ∧
    (value ≤ bf.Max → bf.Update word value = (bf.UpdateUnchecked word value, none)) := by
  unfold UIntBitField.Update
  by_cases hv : value > bf.Max
  · rw [if_pos hv]
    refine ⟨⟨fun _ => hv, fun _ => by simp⟩, fun _ => ⟨rfl, rfl⟩, fun hle => ?_⟩
    omega
  · rw [if_neg hv]
    refine ⟨⟨fun hne => absurd rfl hne, fun hgt => absurd hgt hv⟩, fun hgt => absurd hgt hv,
      fun _ => rfl⟩

theorem C13_uint_update_witness :
    (101 > (UIntBitField.mk 0 7 100 255).Max ∧
      ((UIntBitField.mk 0 7 100 255).Update 0xFF00 101).2.map Error.Kind =
        some ErrorKind.KindValueOverflow ∧
      ((UIntBitField.mk 0 7 100 255).Update 0xFF00 101).1 = 0xFF00) ∧
    (100 ≤ (UIntBitField.mk 0 7 100 255).Max ∧
      (UIntBitField.mk 0 7 100 255).Update 0xFF00 100 =
        ((UIntBitField.mk 0 7 100 255).UpdateUnchecked 0xFF00 100, none)) :=
  ⟨⟨by decide, (C13_uint_update ⟨0, 7, 100, 255⟩ 0xFF00 101).2.1 (by decide)⟩,
    ⟨by decide, (C13_uint_update ⟨0, 7, 100, 255⟩ 0xFF00 100).2.2 (by decide)⟩⟩

/-- C14: for a validly constructed signed field, `Update word value` returns an error
exactly when `value < Min` or `value > Max`; the kind is `ValueUnderflow` when `value < Min`
and `ValueOverflow` when `value > Max`, and the word returned with the error is the input
word; otherwise the result is `UpdateUnchecked word value` with a nil error. -/
theorem C14_int_update (start end_ : Nat) (min max : Int) (bf : IntBitField) (word : Nat)
    (value : Int) (h : NewIntBitField start end_ min max = (bf, none)) :
    ((bf.Update word value).2 ≠ none ↔ (value < bf.Min ∨ value > bf.Max)) ∧
    (value < bf.Min →
      (bf.Update word value).2.map Error.Kind = some ErrorKind.KindValueUnderflow ∧
      (bf.Update word value).1 = word) ∧
    (value > bf.Max →
      (bf.Update word value).2.map Error.Kind = some ErrorKind.KindValueOverflow ∧
      (bf.Update word value).1 = word) ∧
    (bf.Min ≤ value → value ≤ bf.Max →
      bf.Update word value = (bf.UpdateUnchecked word value, none)) := by
  obtain ⟨-, -, -, hle, -, rfl⟩ := NewIntBitField_ok h
  unfold IntBitField.Update newValueOutOfRangeError
  simp only
  by_cases hv : value < min ∨ value > max
  · rw [if_pos hv]
    refine ⟨⟨fun _ => hv, fun _ => by simp⟩, fun hlo => ?_, fun hhi => ?_, fun h1 h2 => ?_⟩
    · simp only [Option.map_some', if_pos hlo, and_self]
    · have hnlo : ¬ value < min := by omega
      simp only [Option.map_some', if_neg hnlo, and_self]
    · omega
  · rw [if_neg hv]
    refine ⟨⟨fun hne => absurd rfl hne, fun hor => absurd hor hv⟩,
      fun hlo => absurd (Or.inl hlo) hv, fun hhi => absurd (Or.inr hhi) hv, fun _ _ => rfl⟩

theorem C14_int_update_witness :
    NewIntBitField 0 7 (-50) 50 = (⟨0, 7, -50, 50, 255⟩, none) ∧
    ((-51 : Int) < (IntBitField.mk 0 7 (-50) 50 255).Min ∧
      ((IntBitField.mk 0 7 (-50) 50 255).Update 7 (-51)).2.map Error.Kind =
        some ErrorKind.KindValueUnderflow ∧
      ((IntBitField.mk 0 7 (-50) 50 255).Update 7 (-51)).1 = 7) ∧
    ((51 : Int) > (IntBitField.mk 0 7 (-50) 50 255).Max ∧
      ((IntBitField.mk 0 7 (-50) 50 255).Update 7 51).2.map Error.Kind =
        some ErrorKind.KindValueOverflow ∧
      ((IntBitField.mk 0 7 (-50) 50 255).Update 7 51).1 = 7) :=
  ⟨by decide,
    ⟨by decide,
      (C14_int_update 0 7 (-50) 50 ⟨0, 7, -50, 50, 255⟩ 7 (-51) (by decide)).2.1 (by decide)⟩,
    ⟨by decide,
      (C14_int_update 0 7 (-50) 50 ⟨0, 7, -50, 50, 255⟩ 7 51 (by decide)).2.2.1 (by decide)⟩⟩

/-- C15: `IntBitField.Update` called with a value below the field's `Min` returns kind
`ValueUnderflow`, not the `ValueOverflow` the test expects: evaluated on the test's case, the
field `[0,7]` with range `[-50,50]` and value `-51` in word `0`. -/
theorem C15_value_below_min_kind :
    NewIntBitField 0 7 (-50) 50 = (⟨0, 7, -50, 50, 255⟩, none) ∧
    ((IntBitField.mk 0 7 (-50) 50 255).Update 0 (-51)).2.map Error.Kind =
      some ErrorKind.KindValueUnderflow ∧
    ((IntBitField.mk 0 7 (-50) 50 255).Update 0 (-51)).2.map Error.Kind ≠
      some ErrorKind.KindValueOverflow ∧
    ((IntBitField.mk 0 7 (-50) 50 255).Update 0 (-51)).1 = 0 := by
  decide

/-! ## Unchecked updates -/

/-- C16: for every validly constructed unsigned field of width `w`, every word and every
value `v` (also above `Max`), `Get (UpdateUnchecked word v) = v mod 2^w`; a value above `Max`
that fits the width is stored as is: the field `[0,7]` with `Max = 100` stores `255`, which
the checked `Update` rejects. -/
theorem C16_uint_unchecked_truncates (start end_ max : Nat) (bf : UIntBitField) (word v : Nat)
    (h : NewUIntBitField start end_ max = (bf, none)) :
    bf.Get (bf.UpdateUnchecked word v) = v % 2 ^ bf.Width ∧
    (v < 2 ^ bf.Width → bf.Get (bf.UpdateUnchecked word v) = v) ∧
    (NewUIntBitField 0 7 100 = (⟨0, 7, 100, 255⟩, none) ∧
      (UIntBitField.mk 0 7 100 255).UpdateUnchecked 0 255 = 255 ∧
      (UIntBitField.mk 0 7 100 255).Get 255 = 255 ∧
      ((UIntBitField.mk 0 7 100 255).Update 0 255).2 ≠ none) := by
  obtain ⟨h1, h2, -, rfl⟩ := NewUIntBitField_ok h
  have hw : (UIntBitField.mk start end_ max (2 ^ (end_ - start + 1) - 1)).Width =
      end_ - start + 1 := by
    unfold UIntBitField.Width
    exact width_eq h1 h2
  have hg : (UIntBitField.mk start end_ max (2 ^ (end_ - start + 1) - 1)).Get
      ((UIntBitField.mk start end_ max (2 ^ (end_ - start + 1) - 1)).UpdateUnchecked word v) =
      v % 2 ^ (end_ - start + 1) := by
    unfold UIntBitField.Get UIntBitField.UpdateUnchecked
    simp only
    exact extract_updateCore _ _ _ _ (by omega)
  rw [hw, hg]
  exact ⟨rfl, fun hlt => Nat.mod_eq_of_lt hlt, by decide, by decide, by decide, by decide⟩

theorem C16_uint_unchecked_truncates_witness :
    NewUIntBitField 8 15 100 = (⟨8, 15, 100, 255⟩, none) ∧
      (UIntBitField.mk 8 15 100 255).Width = 8 ∧
      (UIntBitField.mk 8 15 100 255).Get
        ((UIntBitField.mk 8 15 100 255).UpdateUnchecked 0xFFFF 0x1AB) =
        0x1AB % 2 ^ (UIntBitField.mk 8 15 100 255).Width :=
  ⟨by decide, by decide,
    (C16_uint_unchecked_truncates 8 15 100 ⟨8, 15, 100, 255⟩ 0xFFFF 0x1AB (by decide)).1⟩

/-- C17: for every validly constructed signed field of width `w`, every word and every `v`,
`Get (UpdateUnchecked word v)` is the unique integer in `[-2^(w-1), 2^(w-1) - 1]` congruent
to `v` modulo `2^w`, whatever `Min` and `Max` are; it equals `v` exactly when `v` is
representable in `w` bits: the field `[0,7]` with range `[-50,50]` stores and returns `127`. -/
theorem C17_int_unchecked_wraps (start end_ : Nat) (min max : Int) (bf : IntBitField)
    (word : Nat) (v : Int) (h : NewIntBitField start end_ min max = (bf, none)) :
    -2 ^ (bf.Width - 1) ≤ bf.Get (bf.UpdateUnchecked word v) ∧
    bf.Get (bf.UpdateUnchecked word v) ≤ 2 ^ (bf.Width - 1) - 1 ∧
    (2 : Int) ^ bf.Width ∣ bf.Get (bf.UpdateUnchecked word v) - v ∧
    (∀ r : Int, -2 ^ (bf.Width - 1) ≤ r → r ≤ 2 ^ (bf.Width - 1) - 1 →
      (2 : Int) ^ bf.Width ∣ r - v → r = bf.Get (bf.UpdateUnchecked word v)) ∧
    (bf.Get (bf.UpdateUnchecked word v) = v ↔
      (-2 ^ (bf.Width - 1) ≤ v ∧ v ≤ 2 ^ (bf.Width - 1) - 1)) ∧
    (NewIntBitField 0 7 (-50) 50 = (⟨0, 7, -50, 50, 255⟩, none) ∧
      (IntBitField.mk 0 7 (-50) 50 255).UpdateUnchecked 0 127 = 127 ∧
      (IntBitField.mk 0 7 (-50) 50 255).Get 127 = 127) := by
  obtain ⟨h1, h2, -, -, -, rfl⟩ := NewIntBitField_ok h
  have hw : (IntBitField.mk start end_ min max (2 ^ (end_ - start + 1) - 1)).Width =
      end_ - start + 1 := by
    unfold IntBitField.Width
    exact width_eq h1 h2
  rw [hw, int_get_update h1 h2, Nat.add_sub_cancel]
  have hM : (2 : Int) ^ (end_ - start + 1) = 2 * 2 ^ (end_ - start) := by rw [pow_succ]; ring
  have hH : (0 : Int) < 2 ^ (end_ - start) := by positivity
  have hMpos : (0 : Int) < 2 ^ (end_ - start + 1) := by positivity
  have hr0 : 0 ≤ (v + 2 ^ (end_ - start)) % 2 ^ (end_ - start + 1) :=
    Int.emod_nonneg _ (ne_of_gt hMpos)
  have hr1 : (v + 2 ^ (end_ - start)) % 2 ^ (end_ - start + 1) < 2 ^ (end_ - start + 1) :=
    Int.emod_lt_of_pos _ hMpos
  have hdvd : (2 : Int) ^ (end_ - start + 1) ∣
      (v + 2 ^ (end_ - start)) % 2 ^ (end_ - start + 1) - 2 ^ (end_ - start) - v := by
    refine ⟨-((v + 2 ^ (end_ - start)) / 2 ^ (end_ - start + 1)), ?_⟩
    rw [Int.emod_def]
    ring
  refine ⟨by omega, by omega, hdvd, ?_, ⟨?_, ?_⟩, by decide, by decide, by decide⟩
  · intro r hlo hhi hr
    have hd : (2 : Int) ^ (end_ - start + 1) ∣
        r - ((v + 2 ^ (end_ - start)) % 2 ^ (end_ - start + 1) - 2 ^ (end_ - start)) := by
      have := Int.dvd_sub hr hdvd
      have e : r - v - ((v + 2 ^ (end_ - start)) % 2 ^ (end_ - start + 1)
          - 2 ^ (end_ - start) - v) =
          r - ((v + 2 ^ (end_ - start)) % 2 ^ (end_ - start + 1) - 2 ^ (end_ - start)) := by
        ring
      rwa [e] at this
    have habs : |r - ((v + 2 ^ (end_ - start)) % 2 ^ (end_ - start + 1)
        - 2 ^ (end_ - start))| < 2 ^ (end_ - start + 1) := by
      rw [abs_lt]
      constructor <;> omega
    have := Int.eq_zero_of_abs_lt_dvd hd habs
    omega
  · intro heq
    constructor <;> omega
  · rintro ⟨hlo, hhi⟩
    rw [Int.emod_eq_of_lt (by omega) (by omega)]
    ring

theorem C17_int_unchecked_wraps_witness :
    NewIntBitField 8 15 (-50) 50 = (⟨8, 15, -50, 50, 255⟩, none) ∧
      (IntBitField.mk 8 15 (-50) 50 255).Get
        ((IntBitField.mk 8 15 (-50) 50 255).UpdateUnchecked 0xFFFFFF 200) = -56 ∧
      (2 : Int) ^ (IntBitField.mk 8 15 (-50) 50 255).Width ∣
        (IntBitField.mk 8 15 (-50) 50 255).Get
          ((IntBitField.mk 8 15 (-50) 50 255).UpdateUnchecked 0xFFFFFF 200) - 200 :=
  ⟨by decide, by decide,
    (C17_int_unchecked_wraps 8 15 (-50) 50 ⟨8, 15, -50, 50, 255⟩ 0xFFFFFF 200
      (by decide)).2.2.1⟩

/-! ## Boolean fields -/

/-- C18: `NewBoolBitField pos` fails exactly when `pos ≥ 64`, with kind
`PositionOutOfRange`; on success the descriptor has `Position = pos` and the cached
`bitMask = 2^pos`. -/
theorem C18_new_bool (pos : Nat) :
    ((NewBoolBitField pos).2 ≠ none ↔ pos ≥ 64) ∧
    (pos ≥ 64 →
      (NewBoolBitField pos).2.map Error.Kind = some ErrorKind.KindPositionOutOfRange) ∧
    ((NewBoolBitField pos).2 = none →
      (NewBoolBitField pos).1.Position = pos ∧ (NewBoolBitField pos).1.bitMask = 2 ^ pos) := by
  unfold NewBoolBitField
  by_cases hp : pos ≥ 64
  · rw [if_pos hp]
    refine ⟨⟨fun _ => hp, fun _ => by simp⟩, fun _ => rfl, fun hn => ?_⟩
    simp at hn
  · rw [if_neg hp, shl64_one (by omega)]
    exact ⟨⟨fun hne => absurd rfl hne, fun hge => absurd hge hp⟩, fun hge => absurd hge hp,
      fun _ => ⟨rfl, rfl⟩⟩

theorem C18_new_bool_witness :
    (64 ≥ 64 ∧
      (NewBoolBitField 64).2.map Error.Kind = some ErrorKind.KindPositionOutOfRange) ∧
    ((NewBoolBitField 63).2 = none ∧ (NewBoolBitField 63).1.Position = 63 ∧
      (NewBoolBitField 63).1.bitMask = 2 ^ 63) :=
  ⟨⟨by decide, (C18_new_bool 64).2.1 (by decide)⟩,
    ⟨by decide, (C18_new_bool 63).2.2 (by decide)⟩⟩

/-- C19: for every validly constructed boolean field, every word and every boolean `b`,
`Update` (always with a nil error) and `UpdateUnchecked` return `Set word` when `b` is true
and `Clear word` when `b` is false; `Get` of that word is `b`, and every bit of the 64-bit
word other than `Position` is unchanged. -/
theorem C19_bool_write_read (pos : Nat) (bf : BoolBitField) (word : Nat) (b : Bool)
    (h : NewBoolBitField pos = (bf, none)) :
    bf.Update word b = (bf.UpdateUnchecked word b, none) ∧
    bf.UpdateUnchecked word true = bf.Set word ∧
    bf.UpdateUnchecked word false = bf.Clear word ∧
    bf.Get (bf.UpdateUnchecked word b) = b ∧
    bf.Get (bf.Update word b).1 = b ∧
    (word < 2 ^ 64 → ∀ i, i ≠ bf.Position →
      (bf.UpdateUnchecked word b).testBit i = word.testBit i) := by
  obtain ⟨hp, rfl⟩ := NewBoolBitField_ok h
  have hget : (BoolBitField.mk pos (2 ^ pos)).Get
      ((BoolBitField.mk pos (2 ^ pos)).UpdateUnchecked word b) = b := by
    rw [bool_get_eq]
    unfold BoolBitField.UpdateUnchecked
    cases b
    · simp only [Bool.false_eq_true, if_false]
      rw [testBit_bool_clear _ _ _ hp]
      simp
    · simp only [if_true]
      rw [testBit_bool_set]
      simp
  refine ⟨rfl, rfl, rfl, hget, hget, ?_⟩
  intro hw i hi
  simp only at hi
  have hne : ¬ pos = i := fun hc => hi hc.symm
  unfold BoolBitField.UpdateUnchecked
  cases b
  · simp only [Bool.false_eq_true, if_false]
    rw [testBit_bool_clear _ _ _ hp]
    by_cases h64 : i < 64
    · simp [hne, h64]
    · simp [h64, testBit_ge_64 hw (show 64 ≤ i by omega)]
  · simp only [if_true]
    rw [testBit_bool_set]
    simp [hne]

theorem C19_bool_write_read_witness :
    NewBoolBitField 4 = (⟨4, 16⟩, none) ∧
      (BoolBitField.mk 4 16).Update 0b111 true = (0b10111, none) ∧
      (BoolBitField.mk 4 16).Get ((BoolBitField.mk 4 16).UpdateUnchecked 0b111 true) = true :=
  ⟨by decide, by decide,
    (C19_bool_write_read 4 ⟨4, 16⟩ 0b111 true (by decide)).2.2.2.1⟩

/-- C20: for every validly constructed boolean field and every word,
`Get (Toggle word) = not (Get word)`, every bit other than `Position` is unchanged,
`Toggle (Toggle word) = word`, and the toggled 64-bit word is again a 64-bit word. -/
theorem C20_toggle (pos : Nat) (bf : BoolBitField) (word : Nat)
    (h : NewBoolBitField pos = (bf, none)) :
    bf.Get (bf.Toggle word) = !bf.Get word ∧
    (∀ i, i ≠ bf.Position → (bf.Toggle word).testBit i = word.testBit i) ∧
    bf.Toggle (bf.Toggle word) = word ∧
    (word < 2 ^ 64 → bf.Toggle word < 2 ^ 64) := by
  obtain ⟨hp, rfl⟩ := NewBoolBitField_ok h
  unfold BoolBitField.Toggle
  simp only
  refine ⟨?_, ?_, Nat.xor_cancel_right _ _, ?_⟩
  · rw [bool_get_eq, bool_get_eq, testBit_bool_toggle]
    simp
  · intro i hi
    have hne : ¬ pos = i := fun hc => hi hc.symm
    rw [testBit_bool_toggle]
    simp [hne]
  · intro hw
    exact Nat.xor_lt_two_pow hw (Nat.pow_lt_pow_right (by norm_num) (by omega))

theorem C20_toggle_witness :
    NewBoolBitField 5 = (⟨5, 32⟩, none) ∧
      (BoolBitField.mk 5 32).Toggle 0 = 32 ∧
      (BoolBitField.mk 5 32).Get ((BoolBitField.mk 5 32).Toggle 0) =
        !(BoolBitField.mk 5 32).Get 0 ∧
      (BoolBitField.mk 5 32).Toggle ((BoolBitField.mk 5 32).Toggle 0xABCD) = 0xABCD :=
  ⟨by decide, by decide,
    (C20_toggle 5 ⟨5, 32⟩ 0 (by decide)).1,
    (C20_toggle 5 ⟨5, 32⟩ 0xABCD (by decide)).2.2.1⟩

/-! ## Byte codec lemmas -/

theorem pow_256 (k : Nat) : 256 ^ k = 2 ^ (8 * k) := by
  rw [Nat.pow_mul]

theorem shl64_byte {b i : Nat} (hb : b < 256) (hi : i < 8) : shl64 b (8 * i) = b * 2 ^ (8 * i) := by
  unfold shl64
  rw [Nat.shiftLeft_eq]
  apply Nat.mod_eq_of_lt
  have h1 : b * 2 ^ (8 * i) < 256 * 2 ^ (8 * i) :=
    Nat.mul_lt_mul_of_pos_right hb (Nat.pos_pow_of_pos _ (by norm_num))
  have h2 : 256 * 2 ^ (8 * i) = 2 ^ (8 * i + 8) := by
    rw [Nat.pow_add]; norm_num [Nat.mul_comm]
  have h3 : 2 ^ (8 * i + 8) ≤ 2 ^ 64 := Nat.pow_le_pow_right (by norm_num) (by omega)
  omega

/-- The loop of `UnpackBytes` adds byte `k` of the rest at weight `2^(8 (i + k))`, as long as
the indices stay below 8. -/
theorem unpack_loop_eq (data : List Nat) :
    ∀ (i acc : Nat), i + data.length ≤ 8 → (∀ b ∈ data, b < 256) → acc < 2 ^ (8 * i) →
      UnpackBytes.loop i acc data =
        acc + Finset.sum (Finset.range data.length) (fun k => data.getD k 0 * 2 ^ (8 * (i + k)))
    := by
  induction data with
  | nil =>
    intro i acc _ _ _
    simp [UnpackBytes.loop]
  | cons b rest ih =>
    intro i acc hlen hb hacc
    have hb0 : b < 256 := hb b (List.mem_cons_self _ _)
    have hrest : ∀ x ∈ rest, x < 256 := fun x hx => hb x (List.mem_cons_of_mem _ hx)
    simp only [List.length_cons] at hlen
    have hor : acc ||| shl64 b (8 * i) = acc + b * 2 ^ (8 * i) := by
      rw [shl64_byte hb0 (by omega), Nat.lor_comm, Nat.mul_comm b,
        ← Nat.mul_add_lt_is_or hacc b]
      omega
    have hacc2 : acc + b * 2 ^ (8 * i) < 2 ^ (8 * (i + 1)) := by
      have h2 : 2 ^ (8 * (i + 1)) = 256 * 2 ^ (8 * i) := by
        rw [show 8 * (i + 1) = 8 * i + 8 by ring, Nat.pow_add]; norm_num [Nat.mul_comm]
      have h3 : b * 2 ^ (8 * i) ≤ 255 * 2 ^ (8 * i) := Nat.mul_le_mul_right _ (by omega)
      omega
    unfold UnpackBytes.loop
    rw [hor, ih (i + 1) _ (by omega) hrest hacc2, List.length_cons, Finset.sum_range_succ']
    simp only [List.getD_cons_succ, List.getD_cons_zero, Nat.add_zero]
    have : ∀ k, 8 * (i + 1 + k) = 8 * (i + (k + 1)) := fun k => by ring
    simp only [this]
    omega

theorem unpack_eq_sum (data : List Nat) (hlen : data.length ≤ 8) (hb : ∀ b ∈ data, b < 256) :
    UnpackBytes data =
      Finset.sum (Finset.range data.length) (fun i => data.getD i 0 * 256 ^ i) := by
  unfold UnpackBytes
  rw [unpack_loop_eq data 0 0 (by omega) hb (by norm_num)]
  simp only [Nat.zero_add, pow_256]

theorem pack_loop_length (value : Nat) (data : List Nat) :
    ∀ i, (PackBytes.loop value i data).length = data.length := by
  induction data with
  | nil => intro i; rfl
  | cons b rest ih => intro i; simp [PackBytes.loop, ih]

theorem pack_loop_getD (value : Nat) (data : List Nat) :
    ∀ i k, k < data.length →
      (PackBytes.loop value i data).getD k 0 = shr64 value (8 * (i + k)) % 256 := by
  induction data with
  | nil => intro i k hk; simp at hk
  | cons b rest ih =>
    intro i k hk
    cases k with
    | zero => simp [PackBytes.loop]
    | succ k =>
      simp only [List.length_cons, Nat.add_lt_add_iff_right] at hk
      simp only [PackBytes.loop, List.getD_cons_succ]
      rw [ih (i + 1) k hk]
      congr 3
      ring

theorem pack_loop_lt (value : Nat) (data : List Nat) :
    ∀ i, ∀ b ∈ PackBytes.loop value i data, b < 256 := by
  induction data with
  | nil => intro i b hb; simp [PackBytes.loop] at hb
  | cons x rest ih =>
    intro i b hb
    simp only [PackBytes.loop, List.mem_cons] at hb
    rcases hb with rfl | hb
    · exact Nat.mod_lt _ (by norm_num)
    · exact ih (i + 1) b hb

/-- The little-endian digits of `v` below index `n` add up to `v mod 256^n`. -/
theorem digits_sum (v : Nat) (n : Nat) :
    Finset.sum (Finset.range n) (fun k => (shr64 v (8 * k) % 256) * 256 ^ k) = v % 256 ^ n := by
  induction n with
  | zero => simp [Nat.mod_one]
  | succ n ih =>
    rw [Finset.sum_range_succ, ih, Nat.pow_succ, Nat.mod_mul]
    unfold shr64
    rw [Nat.shiftRight_eq_div_pow, pow_256, Nat.mul_comm (v / 2 ^ (8 * n) % 256)]

theorem unpack_pack (data : List Nat) (value : Nat) (hlen : data.length ≤ 8) :
    UnpackBytes (PackBytes data value) = value % 256 ^ data.length := by
  unfold PackBytes
  rw [unpack_eq_sum _ (by rw [pack_loop_length]; exact hlen) (pack_loop_lt value data 0),
    pack_loop_length, ← digits_sum]
  apply Finset.sum_congr rfl
  intro k hk
  rw [pack_loop_getD value data 0 k (Finset.mem_range.mp hk), Nat.zero_add]

/-! ## Byte codec -/

/-- C21: for every byte slice of length `n ≤ 8`, `UnpackBytes data` is the sum over `i < n`
of `data[i] * 256^i`; the empty slice gives `0` and `{0x34, 0x12}` gives `0x1234`. -/
theorem C21_unpack_little_endian (data : List Nat) (hlen : data.length ≤ 8)
    (hb : ∀ b ∈ data, b < 256) :
    UnpackBytes data =
      Finset.sum (Finset.range data.length) (fun i => data.getD i 0 * 256 ^ i) ∧
    UnpackBytes [] = 0 ∧ UnpackBytes [0x34, 0x12] = 0x1234 :=
  ⟨unpack_eq_sum data hlen hb, by decide, by decide⟩

theorem C21_unpack_little_endian_witness :
    [0xF0, 0xDE, 0xBC].length ≤ 8 ∧ (∀ b ∈ [0xF0, 0xDE, 0xBC], b < 256) ∧
      UnpackBytes [0xF0, 0xDE, 0xBC] = 0xBCDEF0 ∧
      UnpackBytes [0xF0, 0xDE, 0xBC] =
        Finset.sum (Finset.range [0xF0, 0xDE, 0xBC].length)
          (fun i => [0xF0, 0xDE, 0xBC].getD i 0 * 256 ^ i) :=
  ⟨by decide, by decide, by decide,
    (C21_unpack_little_endian [0xF0, 0xDE, 0xBC] (by decide) (by decide)).1⟩

/-- C22: after `PackBytes data value` the slice has its old length `n` and
`data[i] = (value >> 8i) mod 256` for every `i < n`, the higher bytes of `value` being
dropped: `0x123456789ABCDEF0` into 3 bytes gives `{0xF0, 0xDE, 0xBC}`. -/
theorem C22_pack_little_endian (data : List Nat) (value : Nat) :
    (PackBytes data value).length = data.length ∧
    (∀ i, i < data.length → (PackBytes data value).getD i 0 = shr64 value (8 * i) % 256) ∧
    PackBytes [0, 0, 0] 0x123456789ABCDEF0 = [0xF0, 0xDE, 0xBC] := by
  refine ⟨pack_loop_length value data 0, ?_, by decide⟩
  intro i hi
  unfold PackBytes
  rw [pack_loop_getD value data 0 i hi, Nat.zero_add]

theorem C22_pack_little_endian_witness :
    1 < [7, 7, 7].length ∧
      (PackBytes [7, 7, 7] 0x123456789ABCDEF0).getD 1 0 =
        shr64 0x123456789ABCDEF0 (8 * 1) % 256 :=
  ⟨by decide, (C22_pack_little_endian [7, 7, 7] 0x123456789ABCDEF0).2.1 1 (by decide)⟩

/-- C23: for every value and every buffer of length `n` in `[0,8]`, `UnpackBytes` of the
buffer written by `PackBytes buffer value` is `value mod 2^(8n)`; for an 8-byte buffer and a
64-bit value it is `value`. -/
theorem C23_codec_round_trip (data : List Nat) (value : Nat) (hlen : data.length ≤ 8) :
    UnpackBytes (PackBytes data value) = value % 2 ^ (8 * data.length) ∧
    (data.length = 8 → value < 2 ^ 64 → UnpackBytes (PackBytes data value) = value) := by
  have h := unpack_pack data value hlen
  rw [pow_256] at h
  refine ⟨h, fun h8 hv => ?_⟩
  rw [h, h8]
  exact Nat.mod_eq_of_lt hv

theorem C23_codec_round_trip_witness :
    [1, 2, 3].length ≤ 8 ∧
      UnpackBytes (PackBytes [1, 2, 3] 0x123456789ABCDEF0) = 0xBCDEF0 ∧
      UnpackBytes (PackBytes [1, 2, 3] 0x123456789ABCDEF0) =
        0x123456789ABCDEF0 % 2 ^ (8 * [1, 2, 3].length) :=
  ⟨by decide, by decide,
    (C23_codec_round_trip [1, 2, 3] 0x123456789ABCDEF0 (by decide)).1⟩

/-! ## Checked setters -/

/-- `SetUIntFieldAs` on a slice of 1 to 8 bytes. -/
theorem SetUIntFieldAs_mid (T : UnsignedInteger) (packed : List Nat) (field : UIntBitField)
    (value : Nat) (h1 : 1 ≤ packed.length) (h2 : packed.length ≤ 8) :
    SetUIntFieldAs T packed field value =
      if value > field.Max then
        (packed, some (newValueOverflowError value field.Max field.Width))
      else (PackBytes packed (field.UpdateUnchecked (UnpackBytes packed) value), none) := by
  unfold SetUIntFieldAs UIntBitField.Update
  rw [if_neg (by omega), if_neg (by omega)]
  by_cases hv : value > field.Max
  · simp only [if_pos hv]
  · simp only [if_neg hv]

/-- `SetIntFieldAs` on a slice of 1 to 8 bytes. -/
theorem SetIntFieldAs_mid (T : SignedInteger) (packed : List Nat) (field : IntBitField)
    (value : Int) (h1 : 1 ≤ packed.length) (h2 : packed.length ≤ 8) :
    SetIntFieldAs T packed field value =
      if value < field.Min ∨ value > field.Max then
        (packed, some (newValueOutOfRangeError value value field.Min field.Max field.Width))
      else (PackBytes packed (field.UpdateUnchecked (UnpackBytes packed) value), none) := by
  unfold SetIntFieldAs IntBitField.Update
  rw [if_neg (by omega), if_neg (by omega)]
  by_cases hv : value < field.Min ∨ value > field.Max
  · simp only [if_pos hv]
  · simp only [if_neg hv]

theorem uint_update_err (field : UIntBitField) (word value : Nat) :
    (field.Update word value).2 ≠ none ↔ value > field.Max := by
  unfold UIntBitField.Update
  split <;> simp [*]

theorem int_update_err (field : IntBitField) (word : Nat) (value : Int) :
    (field.Update word value).2 ≠ none ↔ (value < field.Min ∨ value > field.Max) := by
  unfold IntBitField.Update
  split <;> simp [*]

/-- C24: `SetUIntFieldAs`, `SetIntFieldAs` and `SetBoolField` return kind `SliceEmpty` for an
empty slice and kind `SliceTooLarge` for more than 8 bytes, whatever the value; for 1 to 8
bytes the integer setters return an error exactly when the field's checked `Update` rejects
the value, and `SetBoolField` returns nil. -/
theorem C24_slice_length_guards (TU : UnsignedInteger) (TS : SignedInteger)
    (packed : List Nat) (uf : UIntBitField) (sf : IntBitField) (bf : BoolBitField)
    (uv : Nat) (sv : Int) (b : Bool) :
    (packed.length = 0 →
      (SetUIntFieldAs TU packed uf uv).2.map Error.Kind = some ErrorKind.KindSliceEmpty ∧
      (SetIntFieldAs TS packed sf sv).2.map Error.Kind = some ErrorKind.KindSliceEmpty ∧
      (SetBoolField packed bf b).2.map Error.Kind = some ErrorKind.KindSliceEmpty) ∧
    (packed.length > 8 →
      (SetUIntFieldAs TU packed uf uv).2.map Error.Kind = some ErrorKind.KindSliceTooLarge ∧
      (SetIntFieldAs TS packed sf sv).2.map Error.Kind = some ErrorKind.KindSliceTooLarge ∧
      (SetBoolField packed bf b).2.map Error.Kind = some ErrorKind.KindSliceTooLarge) ∧
    (1 ≤ packed.length → packed.length ≤ 8 →
      ((SetUIntFieldAs TU packed uf uv).2 ≠ none ↔
        (uf.Update (UnpackBytes packed) uv).2 ≠ none) ∧
      ((SetUIntFieldAs TU packed uf uv).2 ≠ none ↔ uv > uf.Max) ∧
      ((SetIntFieldAs TS packed sf sv).2 ≠ none ↔
        (sf.Update (UnpackBytes packed) sv).2 ≠ none) ∧
      ((SetIntFieldAs TS packed sf sv).2 ≠ none ↔ (sv < sf.Min ∨ sv > sf.Max)) ∧
      (SetBoolField packed bf b).2 = none) := by
  refine ⟨?_, ?_, ?_⟩
  · intro h0
    unfold SetUIntFieldAs SetIntFieldAs SetBoolField
    simp only [if_pos h0]
    exact ⟨rfl, rfl, rfl⟩
  · intro h8
    unfold SetUIntFieldAs SetIntFieldAs SetBoolField
    simp only [if_neg (show ¬ packed.length = 0 by omega), if_pos h8]
    exact ⟨rfl, rfl, rfl⟩
  · intro h1 h8
    have hu : (SetUIntFieldAs TU packed uf uv).2 ≠ none ↔ uv > uf.Max := by
      rw [SetUIntFieldAs_mid TU packed uf uv h1 h8]
      split <;> simp [*]
    have hs : (SetIntFieldAs TS packed sf sv).2 ≠ none ↔ (sv < sf.Min ∨ sv > sf.Max) := by
      rw [SetIntFieldAs_mid TS packed sf sv h1 h8]
      split <;> simp [*]
    refine ⟨hu.trans (uint_update_err uf _ uv).symm, hu,
      hs.trans (int_update_err sf _ sv).symm, hs, ?_⟩
    unfold SetBoolField
    rw [if_neg (by omega), if_neg (by omega)]

theorem C24_slice_length_guards_witness :
    ([] : List Nat).length = 0 ∧
      (SetUIntFieldAs .uint64 [] ⟨0, 7, 100, 255⟩ 101).2.map Error.Kind =
        some ErrorKind.KindSliceEmpty ∧
    [0, 0, 0, 0, 0, 0, 0, 0, 0].length > 8 ∧
      (SetIntFieldAs .int64 [0, 0, 0, 0, 0, 0, 0, 0, 0] ⟨0, 7, -50, 50, 255⟩ 51).2.map
        Error.Kind = some ErrorKind.KindSliceTooLarge ∧
    (1 ≤ [0, 0].length ∧ [0, 0].length ≤ 8 ∧ (SetBoolField [0, 0] ⟨3, 8⟩ true).2 = none) :=
  ⟨by decide,
    ((C24_slice_length_guards .uint64 .int64 [] ⟨0, 7, 100, 255⟩ ⟨0, 7, -50, 50, 255⟩ ⟨3, 8⟩
      101 51 true).1 (by decide)).1,
    by decide,
    ((C24_slice_length_guards .uint64 .int64 [0, 0, 0, 0, 0, 0, 0, 0, 0] ⟨0, 7, 100, 255⟩
      ⟨0, 7, -50, 50, 255⟩ ⟨3, 8⟩ 101 51 true).2.1 (by decide)).2.1,
    by decide, by decide,
    ((C24_slice_length_guards .uint64 .int64 [0, 0] ⟨0, 7, 100, 255⟩ ⟨0, 7, -50, 50, 255⟩
      ⟨3, 8⟩ 101 51 true).2.2 (by decide) (by decide)).2.2.2.2⟩

/-- C25: whenever `SetUIntFieldAs`, `SetIntFieldAs` or `SetBoolField` returns an error (empty
slice, more than 8 bytes, or value outside the field's range), the buffer holds after the
call exactly the bytes it held before. -/
theorem C25_checked_setters_atomic (TU : UnsignedInteger) (TS : SignedInteger)
    (packed : List Nat) (uf : UIntBitField) (sf : IntBitField) (bf : BoolBitField)
    (uv : Nat) (sv : Int) (b : Bool) :
    ((SetUIntFieldAs TU packed uf uv).2 ≠ none → (SetUIntFieldAs TU packed uf uv).1 = packed) ∧
    ((SetIntFieldAs TS packed sf sv).2 ≠ none → (SetIntFieldAs TS packed sf sv).1 = packed) ∧
    ((SetBoolField packed bf b).2 ≠ none → (SetBoolField packed bf b).1 = packed) := by
  refine ⟨?_, ?_, ?_⟩
  · unfold SetUIntFieldAs
    split
    · exact fun _ => rfl
    split
    · exact fun _ => rfl
    split
    · exact fun _ => rfl
    · exact fun h => absurd rfl h
  · unfold SetIntFieldAs
    split
    · exact fun _ => rfl
    split
    · exact fun _ => rfl
    split
    · exact fun _ => rfl
    · exact fun h => absurd rfl h
  · unfold SetBoolField
    split
    · exact fun _ => rfl
    split
    · exact fun _ => rfl
    · exact fun h => absurd rfl h

theorem C25_checked_setters_atomic_witness :
    (SetUIntFieldAs .uint8 [0xAA, 0xBB] ⟨0, 7, 100, 255⟩ 101).2 ≠ none ∧
      (SetUIntFieldAs .uint8 [0xAA, 0xBB] ⟨0, 7, 100, 255⟩ 101).1 = [0xAA, 0xBB] ∧
    (SetIntFieldAs .int8 [0xAA, 0xBB] ⟨0, 7, -50, 50, 255⟩ (-51)).2 ≠ none ∧
      (SetIntFieldAs .int8 [0xAA, 0xBB] ⟨0, 7, -50, 50, 255⟩ (-51)).1 = [0xAA, 0xBB] ∧
    (SetBoolField [1, 2, 3, 4, 5, 6, 7, 8, 9] ⟨3, 8⟩ true).2 ≠ none ∧
      (SetBoolField [1, 2, 3, 4, 5, 6, 7, 8, 9] ⟨3, 8⟩ true).1 =
        [1, 2, 3, 4, 5, 6, 7, 8, 9] :=
  ⟨by decide,
    (C25_checked_setters_atomic .uint8 .int8 [0xAA, 0xBB] ⟨0, 7, 100, 255⟩
      ⟨0, 7, -50, 50, 255⟩ ⟨3, 8⟩ 101 (-51) true).1 (by decide),
    by decide,
    (C25_checked_setters_atomic .uint8 .int8 [0xAA, 0xBB] ⟨0, 7, 100, 255⟩
      ⟨0, 7, -50, 50, 255⟩ ⟨3, 8⟩ 101 (-51) true).2.1 (by decide),
    by decide,
    (C25_checked_setters_atomic .uint8 .int8 [1, 2, 3, 4, 5, 6, 7, 8, 9] ⟨0, 7, 100, 255⟩
      ⟨0, 7, -50, 50, 255⟩ ⟨3, 8⟩ 101 (-51) true).2.2 (by decide)⟩

/-! ## Fields read through a byte buffer -/

theorem uint_get_update_of_le {s e m : Nat} {bf : UIntBitField}
    (h : NewUIntBitField s e m = (bf, none)) (word v : Nat) (hv : v ≤ m) :
    bf.Get (bf.UpdateUnchecked word v) = v := by
  obtain ⟨h1, h2, hm, rfl⟩ := NewUIntBitField_ok h
  unfold UIntBitField.Get UIntBitField.UpdateUnchecked
  simp only
  rw [extract_updateCore _ _ _ _ (by omega)]
  have hp : 0 < 2 ^ (e - s + 1) := Nat.pos_pow_of_pos _ (by norm_num)
  exact Nat.mod_eq_of_lt (by omega)

theorem int_get_update_of_range {s e : Nat} {mn mx : Int} {bf : IntBitField}
    (h : NewIntBitField s e mn mx = (bf, none)) (word : Nat) (v : Int)
    (hlo : mn ≤ v) (hhi : v ≤ mx) :
    bf.Get (bf.UpdateUnchecked word v) = v := by
  obtain ⟨h1, h2, hmn, -, hmx, rfl⟩ := NewIntBitField_ok h
  rw [int_get_update h1 h2]
  have hM : (2 : Int) ^ (e - s + 1) = 2 * 2 ^ (e - s) := by rw [pow_succ]; ring
  rw [Int.emod_eq_of_lt (by omega) (by omega)]
  ring

theorem bool_get_set (p word : Nat) :
    (BoolBitField.mk p (2 ^ p)).Get ((BoolBitField.mk p (2 ^ p)).Set word) = true := by
  rw [bool_get_eq]
  unfold BoolBitField.Set
  rw [testBit_bool_set]
  simp

theorem bool_get_clear (p word : Nat) (hp : p ≤ 63) :
    (BoolBitField.mk p (2 ^ p)).Get ((BoolBitField.mk p (2 ^ p)).Clear word) = false := by
  rw [bool_get_eq]
  unfold BoolBitField.Clear
  rw [testBit_bool_clear _ _ _ hp]
  simp

/-- Bits below `8 n` survive the truncation of a word to `n` bytes. -/
theorem testBit_trunc (word n i : Nat) (hi : i < 8 * n) :
    (word % 256 ^ n).testBit i = word.testBit i := by
  rw [pow_256, Nat.testBit_mod_two_pow]
  simp [hi]

theorem uint_get_trunc {s e m : Nat} {bf : UIntBitField}
    (h : NewUIntBitField s e m = (bf, none)) (word n : Nat) (hn : bf.End < 8 * n) :
    bf.Get (word % 256 ^ n) = bf.Get word :=
  uint_reads_agree h word _ (fun i _ hi => testBit_trunc word n i (by omega))

theorem int_get_trunc {s e : Nat} {mn mx : Int} {bf : IntBitField}
    (h : NewIntBitField s e mn mx = (bf, none)) (word n : Nat) (hn : bf.End < 8 * n) :
    bf.Get (word % 256 ^ n) = bf.Get word :=
  int_reads_agree h word _ (fun i _ hi => testBit_trunc word n i (by omega))

theorem bool_get_trunc {p : Nat} {bf : BoolBitField}
    (h : NewBoolBitField p = (bf, none)) (word n : Nat) (hn : bf.Position < 8 * n) :
    bf.Get (word % 256 ^ n) = bf.Get word :=
  bool_reads_agree h word _ (testBit_trunc word n _ hn)

theorem unsigned_convert_of_lt (T : UnsignedInteger) {v : Nat} (hv : v < 2 ^ T.bits) :
    T.convert v = v :=
  Nat.mod_eq_of_lt hv

theorem signed_convert_of_range (T : SignedInteger) {v : Int}
    (hlo : -2 ^ (T.bits - 1) ≤ v) (hhi : v ≤ 2 ^ (T.bits - 1) - 1) : T.convert v = v := by
  unfold SignedInteger.convert
  cases T <;> simp only [SignedInteger.bits] at hlo hhi ⊢ <;> norm_num at hlo hhi ⊢ <;>
    split <;> omega

set_option maxRecDepth 20000 in
/-- C26: for every buffer of `n` bytes with `1 ≤ n ≤ 8`, every validly constructed unsigned
or signed field with `End < 8n`, every integer type `T` of the family and every value `v` of
type `T` inside the field's range, the checked setter returns nil and the getter at the same
`T` then returns `v`; likewise `SetBoolField` then `GetBoolField` returns the boolean written
when `Position < 8n`. The scenario `version = 3`, `signedTemp = -15`, `humidity = 65` in an
8-byte buffer reads back `3`, `-15`, `65`. -/
theorem C26_buffer_round_trip (packed : List Nat) (h1 : 1 ≤ packed.length)
    (h8 : packed.length ≤ 8) :
    (∀ (T : UnsignedInteger) (start end_ max : Nat) (field : UIntBitField) (v : Nat),
      NewUIntBitField start end_ max = (field, none) → field.End < 8 * packed.length →
      v < 2 ^ T.bits → v ≤ field.Max →
        (SetUIntFieldAs T packed field v).2 = none ∧
        GetUIntFieldAs T (SetUIntFieldAs T packed field v).1 field = v) ∧
    (∀ (T : SignedInteger) (start end_ : Nat) (min max : Int) (field : IntBitField) (v : Int),
      NewIntBitField start end_ min max = (field, none) → field.End < 8 * packed.length →
      -2 ^ (T.bits - 1) ≤ v → v ≤ 2 ^ (T.bits - 1) - 1 → field.Min ≤ v → v ≤ field.Max →
        (SetIntFieldAs T packed field v).2 = none ∧
        GetIntFieldAs T (SetIntFieldAs T packed field v).1 field = v) ∧
    (∀ (pos : Nat) (field : BoolBitField) (b : Bool),
      NewBoolBitField pos = (field, none) → field.Position < 8 * packed.length →
        (SetBoolField packed field b).2 = none ∧
        GetBoolField (SetBoolField packed field b).1 field = b) ∧
    (GetUIntFieldAs .uint8 (SetUIntFieldAs .uint8 (SetIntFieldAs .int8
        (SetUIntFieldAs .uint8 [0, 0, 0, 0, 0, 0, 0, 0] ⟨0, 7, 255, 255⟩ 3).1
        ⟨8, 15, -128, 127, 255⟩ (-15)).1 ⟨16, 23, 255, 255⟩ 65).1 ⟨0, 7, 255, 255⟩ = 3 ∧
      GetIntFieldAs .int8 (SetUIntFieldAs .uint8 (SetIntFieldAs .int8
        (SetUIntFieldAs .uint8 [0, 0, 0, 0, 0, 0, 0, 0] ⟨0, 7, 255, 255⟩ 3).1
        ⟨8, 15, -128, 127, 255⟩ (-15)).1 ⟨16, 23, 255, 255⟩ 65).1 ⟨8, 15, -128, 127, 255⟩
        = -15 ∧
      GetUIntFieldAs .uint8 (SetUIntFieldAs .uint8 (SetIntFieldAs .int8
        (SetUIntFieldAs .uint8 [0, 0, 0, 0, 0, 0, 0, 0] ⟨0, 7, 255, 255⟩ 3).1
        ⟨8, 15, -128, 127, 255⟩ (-15)).1 ⟨16, 23, 255, 255⟩ 65).1 ⟨16, 23, 255, 255⟩
        = 65) := by
  refine ⟨?_, ?_, ?_, by decide, by decide, by decide⟩
  · intro T start end_ max field v hf hend hT hv
    have hmax : field.Max = max := by
      obtain ⟨-, -, -, rfl⟩ := NewUIntBitField_ok hf
      rfl
    rw [SetUIntFieldAs_mid T packed field v h1 h8, if_neg (by omega)]
    refine ⟨rfl, ?_⟩
    unfold GetUIntFieldAs
    simp only
    rw [unpack_pack _ _ h8, uint_get_trunc hf _ _ hend,
      uint_get_update_of_le hf _ v (by omega), unsigned_convert_of_lt T hT]
  · intro T start end_ min max field v hf hend hT1 hT2 hlo hhi
    have hmm : field.Min = min ∧ field.Max = max := by
      obtain ⟨-, -, -, -, -, rfl⟩ := NewIntBitField_ok hf
      exact ⟨rfl, rfl⟩
    rw [SetIntFieldAs_mid T packed field v h1 h8, if_neg (by omega)]
    refine ⟨rfl, ?_⟩
    unfold GetIntFieldAs
    simp only
    rw [unpack_pack _ _ h8, int_get_trunc hf _ _ hend,
      int_get_update_of_range hf _ v (by omega) (by omega), signed_convert_of_range T hT1 hT2]
  · intro pos field b hf hpos
    unfold SetBoolField
    rw [if_neg (by omega), if_neg (by omega)]
    refine ⟨rfl, ?_⟩
    unfold GetBoolField SetBoolFieldUnchecked
    simp only
    rw [unpack_pack _ _ h8, bool_get_trunc hf _ _ hpos]
    obtain ⟨hp, rfl⟩ := NewBoolBitField_ok hf
    cases b
    · simp only [Bool.false_eq_true, if_false]
      exact bool_get_clear pos _ hp
    · simp only [if_true]
      exact bool_get_set pos _

theorem C26_buffer_round_trip_witness :
    (1 ≤ [0xFF, 0xFF, 0xFF].length ∧ [0xFF, 0xFF, 0xFF].length ≤ 8) ∧
      NewIntBitField 8 23 (-32768) 32767 = (⟨8, 23, -32768, 32767, 65535⟩, none) ∧
      (SetIntFieldAs .int16 [0xFF, 0xFF, 0xFF] ⟨8, 23, -32768, 32767, 65535⟩ (-10000)).2
        = none ∧
      GetIntFieldAs .int16
        (SetIntFieldAs .int16 [0xFF, 0xFF, 0xFF] ⟨8, 23, -32768, 32767, 65535⟩ (-10000)).1
        ⟨8, 23, -32768, 32767, 65535⟩ = -10000 :=
  ⟨by decide, by decide,
    (C26_buffer_round_trip [0xFF, 0xFF, 0xFF] (by decide) (by decide)).2.1 .int16 8 23
      (-32768) 32767 ⟨8, 23, -32768, 32767, 65535⟩ (-10000) (by decide) (by decide)
      (by decide) (by decide) (by decide) (by decide)⟩

/-! ## Typed getters -/

theorem uint_get_lt {s e m : Nat} {bf : UIntBitField}
    (h : NewUIntBitField s e m = (bf, none)) (word : Nat) :
    bf.Get word < 2 ^ bf.Width := by
  obtain ⟨h1, h2, -, rfl⟩ := NewUIntBitField_ok h
  unfold UIntBitField.Get UIntBitField.Width
  simp only [width_eq h1 h2, Nat.and_pow_two_sub_one_eq_mod]
  exact Nat.mod_lt _ (Nat.pos_pow_of_pos _ (by norm_num))

theorem int_get_range {s e : Nat} {mn mx : Int} {bf : IntBitField}
    (h : NewIntBitField s e mn mx = (bf, none)) (word : Nat) :
    -2 ^ (bf.Width - 1) ≤ bf.Get word ∧ bf.Get word ≤ 2 ^ (bf.Width - 1) - 1 := by
  obtain ⟨h1, h2, -, -, -, rfl⟩ := NewIntBitField_ok h
  have hw : (IntBitField.mk s e mn mx (2 ^ (e - s + 1) - 1)).Width = e - s + 1 := by
    unfold IntBitField.Width
    exact width_eq h1 h2
  rw [hw, int_get_eq h1 h2, Nat.add_sub_cancel]
  have hraw : shr64 word s % 2 ^ (e - s + 1) < 2 ^ (e - s + 1) :=
    Nat.mod_lt _ (Nat.pos_pow_of_pos _ (by norm_num))
  have hN2 : 2 ^ (e - s + 1) = 2 * 2 ^ (e - s) := by rw [Nat.pow_succ]; omega
  have hZ2 : (2 : Int) ^ (e - s + 1) = 2 * 2 ^ (e - s) := by rw [pow_succ]; ring
  have hc : ((2 ^ (e - s) : Nat) : Int) = (2 : Int) ^ (e - s) := two_pow_cast _
  split <;> constructor <;> omega

theorem signed_convert_wrap (T : SignedInteger) (x : Int) :
    -2 ^ (T.bits - 1) ≤ T.convert x ∧ T.convert x ≤ 2 ^ (T.bits - 1) - 1 ∧
      (2 : Int) ^ T.bits ∣ T.convert x - x := by
  unfold SignedInteger.convert
  cases T <;> simp only [SignedInteger.bits] <;> norm_num <;> split <;>
    refine ⟨?_, ?_, ?_⟩ <;> omega

theorem int_pow_le_pow {a b : Nat} (h : a ≤ b) : (2 : Int) ^ a ≤ 2 ^ b :=
  pow_le_pow_right₀ (by norm_num) h

/-- C27: `GetUIntFieldAs[T]` is `field.Get (UnpackBytes packed)` reduced modulo `2^bits(T)`,
and `GetIntFieldAs[T]` is the signed field value wrapped to the two's-complement range of
`T` (in that range and congruent modulo `2^bits(T)`); when the field's width is at most
`bits(T)` the typed getter returns the field's value exactly: an 8-bit field holding `200`
reads as `200` at `uint8`, `uint16`, `uint32` and `uint64`. -/
theorem C27_typed_getters (packed : List Nat) :
    (∀ (T : UnsignedInteger) (field : UIntBitField),
      GetUIntFieldAs T packed field = field.Get (UnpackBytes packed) % 2 ^ T.bits) ∧
    (∀ (T : SignedInteger) (field : IntBitField),
      -2 ^ (T.bits - 1) ≤ GetIntFieldAs T packed field ∧
      GetIntFieldAs T packed field ≤ 2 ^ (T.bits - 1) - 1 ∧
      (2 : Int) ^ T.bits ∣ GetIntFieldAs T packed field - field.Get (UnpackBytes packed)) ∧
    (∀ (T : UnsignedInteger) (start end_ max : Nat) (field : UIntBitField),
      NewUIntBitField start end_ max = (field, none) → field.Width ≤ T.bits →
        GetUIntFieldAs T packed field = field.Get (UnpackBytes packed)) ∧
    (∀ (T : SignedInteger) (start end_ : Nat) (min max : Int) (field : IntBitField),
      NewIntBitField start end_ min max = (field, none) → field.Width ≤ T.bits →
        GetIntFieldAs T packed field = field.Get (UnpackBytes packed)) ∧
    (GetUIntFieldAs .uint8 (SetUIntFieldUncheckedAs .uint64 [0, 0, 0, 0, 0, 0, 0, 0]
        ⟨8, 15, 255, 255⟩ 200) ⟨8, 15, 255, 255⟩ = 200 ∧
      GetUIntFieldAs .uint16 (SetUIntFieldUncheckedAs .uint64 [0, 0, 0, 0, 0, 0, 0, 0]
        ⟨8, 15, 255, 255⟩ 200) ⟨8, 15, 255, 255⟩ = 200 ∧
      GetUIntFieldAs .uint32 (SetUIntFieldUncheckedAs .uint64 [0, 0, 0, 0, 0, 0, 0, 0]
        ⟨8, 15, 255, 255⟩ 200) ⟨8, 15, 255, 255⟩ = 200 ∧
      GetUIntFieldAs .uint64 (SetUIntFieldUncheckedAs .uint64 [0, 0, 0, 0, 0, 0, 0, 0]
        ⟨8, 15, 255, 255⟩ 200) ⟨8, 15, 255, 255⟩ = 200) := by
  refine ⟨fun _ _ => rfl, fun T field => signed_convert_wrap T _, ?_, ?_,
    by decide, by decide, by decide, by decide⟩
  · intro T start end_ max field hf hw
    unfold GetUIntFieldAs
    apply unsigned_convert_of_lt
    exact Nat.lt_of_lt_of_le (uint_get_lt hf _) (Nat.pow_le_pow_right (by norm_num) hw)
  · intro T start end_ min max field hf hw
    unfold GetIntFieldAs
    obtain ⟨hlo, hhi⟩ := int_get_range hf (UnpackBytes packed)
    have hp : (2 : Int) ^ (field.Width - 1) ≤ 2 ^ (T.bits - 1) :=
      int_pow_le_pow (by omega)
    exact signed_convert_of_range T (by omega) (by omega)

theorem C27_typed_getters_witness :
    NewIntBitField 0 15 (-32768) 32767 = (⟨0, 15, -32768, 32767, 65535⟩, none) ∧
      (IntBitField.mk 0 15 (-32768) 32767 65535).Width ≤ SignedInteger.int32.bits ∧
      (IntBitField.mk 0 15 (-32768) 32767 65535).Get (UnpackBytes [0x38, 0xFF]) = -200 ∧
      GetIntFieldAs .int8 [0x38, 0xFF] ⟨0, 15, -32768, 32767, 65535⟩ = 56 ∧
      GetIntFieldAs .int32 [0x38, 0xFF] ⟨0, 15, -32768, 32767, 65535⟩ =
        (IntBitField.mk 0 15 (-32768) 32767 65535).Get (UnpackBytes [0x38, 0xFF]) :=
  ⟨by decide, by decide, by decide, by decide,
    (C27_typed_getters [0x38, 0xFF]).2.2.2.1 .int32 0 15 (-32768) 32767
      ⟨0, 15, -32768, 32767, 65535⟩ (by decide) (by decide)⟩

/-! ## Convenience and panicking constructors -/

/-- C28: `NewIntBitFieldAuto start end` succeeds exactly when `start ≤ end ≤ 63`, and then
`Min = -2^(w-1)` and `Max = 2^(w-1) - 1` with `w = end - start + 1`; for invalid positions it
returns what `NewIntBitField` returns for them (`StartAfterEnd` if `start > end`, else
`EndOutOfRange`), with the width computed beforehand wrapping in 8-bit arithmetic. -/
theorem C28_new_int_auto (start end_ : Nat) :
    ((NewIntBitFieldAuto start end_).2 = none ↔ (start ≤ end_ ∧ end_ ≤ 63)) ∧
    (start ≤ end_ → end_ ≤ 63 →
      NewIntBitFieldAuto start end_ =
        ({ Start := start, End := end_, Min := -2 ^ (end_ - start + 1 - 1),
           Max := 2 ^ (end_ - start + 1 - 1) - 1, mask := 2 ^ (end_ - start + 1) - 1 }, none)) ∧
    (start > end_ →
      NewIntBitFieldAuto start end_ =
        (IntBitField.zero, some (newStartAfterEndError start end_)) ∧
      ∀ min max : Int, NewIntBitField start end_ min max = NewIntBitFieldAuto start end_) ∧
    (start ≤ end_ → end_ ≥ 64 →
      NewIntBitFieldAuto start end_ = (IntBitField.zero, some (newEndOutOfRangeError end_)) ∧
      ∀ min max : Int, NewIntBitField start end_ min max = NewIntBitFieldAuto start end_) ∧
    (add8 (sub8 3 5) 1 = 255 ∧ add8 (sub8 4 5) 1 = 0 ∧ intRangeForWidth 0 = (0, -1) ∧
      NewIntBitFieldAuto 5 3 = (IntBitField.zero, some (newStartAfterEndError 5 3)) ∧
      NewIntBitFieldAuto 5 4 = (IntBitField.zero, some (newStartAfterEndError 5 4))) := by
  have hA : start > end_ → ∀ min max : Int, NewIntBitField start end_ min max =
      (IntBitField.zero, some (newStartAfterEndError start end_)) := by
    intro h min max
    unfold NewIntBitField
    rw [if_pos h]
  have hB : start ≤ end_ → end_ ≥ 64 → ∀ min max : Int, NewIntBitField start end_ min max =
      (IntBitField.zero, some (newEndOutOfRangeError end_)) := by
    intro h1 h2 min max
    unfold NewIntBitField
    rw [if_neg (by omega), if_pos h2]
  have hC : start ≤ end_ → end_ ≤ 63 →
      NewIntBitFieldAuto start end_ =
        ({ Start := start, End := end_, Min := -2 ^ (end_ - start + 1 - 1),
           Max := 2 ^ (end_ - start + 1 - 1) - 1, mask := 2 ^ (end_ - start + 1) - 1 }, none) := by
    intro h1 h2
    unfold NewIntBitFieldAuto
    simp only [width_eq h1 h2]
    rw [intRangeForWidth_eq (by omega) (by omega)]
    simp only [Nat.add_sub_cancel]
    have hP : (0 : Int) < 2 ^ (end_ - start) := by positivity
    exact NewIntBitField_eq_ok _ _ h1 h2 (le_refl _) (le_refl _) (by omega)
  refine ⟨⟨?_, ?_⟩, hC, ?_, ?_, by decide, by decide, by decide, by decide, by decide⟩
  · intro hnone
    by_cases h1 : start > end_
    · have : NewIntBitFieldAuto start end_ =
          (IntBitField.zero, some (newStartAfterEndError start end_)) := hA h1 _ _
      rw [this] at hnone
      simp at hnone
    by_cases h2 : end_ ≥ 64
    · have : NewIntBitFieldAuto start end_ =
          (IntBitField.zero, some (newEndOutOfRangeError end_)) := hB (by omega) h2 _ _
      rw [this] at hnone
      simp at hnone
    exact ⟨by omega, by omega⟩
  · rintro ⟨h1, h2⟩
    rw [hC h1 h2]
  · intro h
    have hauto : NewIntBitFieldAuto start end_ =
        (IntBitField.zero, some (newStartAfterEndError start end_)) := hA h _ _
    exact ⟨hauto, fun min max => by rw [hauto]; exact hA h min max⟩
  · intro h1 h2
    have hauto : NewIntBitFieldAuto start end_ =
        (IntBitField.zero, some (newEndOutOfRangeError end_)) := hB h1 h2 _ _
    exact ⟨hauto, fun min max => by rw [hauto]; exact hB h1 h2 min max⟩

theorem C28_new_int_auto_witness :
    ((31 : Nat) ≤ 31 ∧ 31 ≤ 63 ∧
      NewIntBitFieldAuto 31 31 = (⟨31, 31, -2 ^ (31 - 31 + 1 - 1), 2 ^ (31 - 31 + 1 - 1) - 1,
        2 ^ (31 - 31 + 1) - 1⟩, none)) ∧
    (60 ≤ 64 ∧ 64 ≥ 64 ∧
      NewIntBitFieldAuto 60 64 = (IntBitField.zero, some (newEndOutOfRangeError 64))) :=
  ⟨⟨by decide, by decide, (C28_new_int_auto 31 31).2.1 (by decide) (by decide)⟩,
    ⟨by decide, by decide, ((C28_new_int_auto 60 64).2.2.2.1 (by decide) (by decide)).1⟩⟩

/-- C29: `MustNewUIntBitField`, `MustNewIntBitField` and `MustNewBoolBitField` panic exactly
when the matching `New*` constructor returns an error for the same arguments, and otherwise
return the descriptor that constructor returns. -/
theorem C29_must_constructors :
    (∀ start end_ max : Nat,
      ((∃ msg, MustNewUIntBitField start end_ max = .error msg) ↔
        (NewUIntBitField start end_ max).2 ≠ none) ∧
      ((NewUIntBitField start end_ max).2 = none →
        MustNewUIntBitField start end_ max = .ok (NewUIntBitField start end_ max).1)) ∧
    (∀ (start end_ : Nat) (min max : Int),
      ((∃ msg, MustNewIntBitField start end_ min max = .error msg) ↔
        (NewIntBitField start end_ min max).2 ≠ none) ∧
      ((NewIntBitField start end_ min max).2 = none →
        MustNewIntBitField start end_ min max = .ok (NewIntBitField start end_ min max).1)) ∧
    (∀ pos : Nat,
      ((∃ msg, MustNewBoolBitField pos = .error msg) ↔ (NewBoolBitField pos).2 ≠ none) ∧
      ((NewBoolBitField pos).2 = none →
        MustNewBoolBitField pos = .ok (NewBoolBitField pos).1)) := by
  refine ⟨?_, ?_, ?_⟩
  · intro start end_ max
    unfold MustNewUIntBitField
    rcases NewUIntBitField start end_ max with ⟨bf, _ | err⟩ <;> simp
  · intro start end_ min max
    unfold MustNewIntBitField
    rcases NewIntBitField start end_ min max with ⟨bf, _ | err⟩ <;> simp
  · intro pos
    unfold MustNewBoolBitField
    rcases NewBoolBitField pos with ⟨bf, _ | err⟩ <;> simp

theorem C29_must_constructors_witness :
    (NewUIntBitField 0 7 255).2 = none ∧
      MustNewUIntBitField 0 7 255 = .ok ⟨0, 7, 255, 255⟩ ∧
    (NewIntBitField 10 5 (-10) 10).2 ≠ none ∧
      (∃ msg, MustNewIntBitField 10 5 (-10) 10 = .error msg) :=
  ⟨by decide, (C29_must_constructors.1 0 7 255).2 (by decide), by decide,
    (C29_must_constructors.2.1 10 5 (-10) 10).1.2 (by decide)⟩

/-! ## Error matching -/

/-- C30: `(*Error).Is target` is true exactly when `target` is a `*Error` with the same
`Kind`, whatever the `Details`; so every error matches the exported sentinel of its own kind
and no sentinel of another kind: the error of `NewUIntBitField 10 5 100` matches
`ErrStartAfterEnd` and none of the other seven. -/
theorem C30_error_is (e : Error) :
    (∀ target : ErrorValue,
      e.Is target = some true ↔ ∃ t : Error, target = .ofError (some t) ∧ e.Kind = t.Kind) ∧
    (∀ d : errorDetails, e.Is (.ofError (some { Kind := e.Kind, Details := d })) = some true) ∧
    (e.Is (.ofError (some ErrStartAfterEnd)) =
        some (decide (e.Kind = ErrorKind.KindStartAfterEnd)) ∧
      e.Is (.ofError (some ErrEndOutOfRange)) =
        some (decide (e.Kind = ErrorKind.KindEndOutOfRange)) ∧
      e.Is (.ofError (some ErrValueOverflow)) =
        some (decide (e.Kind = ErrorKind.KindValueOverflow)) ∧
      e.Is (.ofError (some ErrValueUnderflow)) =
        some (decide (e.Kind = ErrorKind.KindValueUnderflow)) ∧
      e.Is (.ofError (some ErrValueRangeInverted)) =
        some (decide (e.Kind = ErrorKind.KindValueRangeInverted)) ∧
      e.Is (.ofError (some ErrPositionOutOfRange)) =
        some (decide (e.Kind = ErrorKind.KindPositionOutOfRange)) ∧
      e.Is (.ofError (some ErrSliceEmpty)) =
        some (decide (e.Kind = ErrorKind.KindSliceEmpty)) ∧
      e.Is (.ofError (some ErrSliceTooLarge)) =
        some (decide (e.Kind = ErrorKind.KindSliceTooLarge))) ∧
    ((NewUIntBitField 10 5 100).2.map (fun err => err.Is (.ofError (some ErrStartAfterEnd)))
        = some (some true) ∧
      (NewUIntBitField 10 5 100).2.map (fun err =>
        [ErrEndOutOfRange, ErrValueOverflow, ErrValueUnderflow, ErrValueRangeInverted,
          ErrPositionOutOfRange, ErrSliceEmpty, ErrSliceTooLarge].map
          (fun s => err.Is (.ofError (some s))))
        = some [some false, some false, some false, some false, some false, some false,
          some false]) := by
  refine ⟨?_, ?_, ⟨rfl, rfl, rfl, rfl, rfl, rfl, rfl, rfl⟩, by decide, by decide⟩
  · intro target
    constructor
    · intro h
      rcases target with (_ | t) | _
      · simp [Error.Is] at h
      · refine ⟨t, rfl, ?_⟩
        simpa [Error.Is] using h
      · simp [Error.Is] at h
    · rintro ⟨t, rfl, hk⟩
      simp [Error.Is, hk]
  · intro d
    simp [Error.Is]

theorem C30_error_is_witness :
    (newValueOverflowError 101 100 8).Kind = ErrValueOverflow.Kind ∧
      (newValueOverflowError 101 100 8).Is (.ofError (some ErrValueOverflow)) = some true :=
  ⟨by decide,
    ((C30_error_is (newValueOverflowError 101 100 8)).1 (.ofError (some ErrValueOverflow))).2
      ⟨ErrValueOverflow, rfl, by decide⟩⟩

/-! ## Person schema -/

/-- C31: the eleven descriptors of the person schema (name size, respect, strength,
experience, level, type, house, weapon, family, mana, health) are accepted by their
constructors with the configured maxima, so initialisation does not panic; their bit ranges
are pairwise disjoint, lie within bits `0..46`, and have widths
`6, 4, 4, 4, 4, 2, 1, 1, 1, 10, 10`. -/
theorem C31_person_schema :
    (nameSizeField = .ok ⟨0, 5, 42, 63⟩ ∧ respectField = .ok ⟨6, 9, 10, 15⟩ ∧
      strengthField = .ok ⟨10, 13, 10, 15⟩ ∧ experienceField = .ok ⟨14, 17, 10, 15⟩ ∧
      levelField = .ok ⟨18, 21, 10, 15⟩ ∧ typeField = .ok ⟨22, 23, 3, 3⟩ ∧
      houseField = .ok ⟨24, 2 ^ 24⟩ ∧ weaponField = .ok ⟨25, 2 ^ 25⟩ ∧
      familyField = .ok ⟨26, 2 ^ 26⟩ ∧ manaField = .ok ⟨27, 36, 1000, 1023⟩ ∧
      healthField = .ok ⟨37, 46, 1000, 1023⟩) ∧
    [(UIntBitField.mk 0 5 42 63).Width, (UIntBitField.mk 6 9 10 15).Width,
      (UIntBitField.mk 10 13 10 15).Width, (UIntBitField.mk 14 17 10 15).Width,
      (UIntBitField.mk 18 21 10 15).Width, (UIntBitField.mk 22 23 3 3).Width,
      (UIntBitField.mk 27 36 1000 1023).Width, (UIntBitField.mk 37 46 1000 1023).Width]
      = [6, 4, 4, 4, 4, 2, 10, 10] ∧
    List.Pairwise (fun r1 r2 : Nat × Nat => r1.2 < r2.1 ∨ r2.2 < r1.1)
      [(bitNameStart, bitNameEnd), (bitRespectStart, bitRespectEnd),
        (bitStrengthStart, bitStrengthEnd), (bitExperienceStart, bitExperienceEnd),
        (bitLevelStart, bitLevelEnd), (bitTypeStart, bitTypeEnd),
        (bitHousePos, bitHousePos), (bitWeaponPos, bitWeaponPos),
        (bitFamilyPos, bitFamilyPos), (bitManaStart, bitManaEnd),
        (bitHealthStart, bitHealthEnd)] ∧
    (∀ r ∈ [(bitNameStart, bitNameEnd), (bitRespectStart, bitRespectEnd),
        (bitStrengthStart, bitStrengthEnd), (bitExperienceStart, bitExperienceEnd),
        (bitLevelStart, bitLevelEnd), (bitTypeStart, bitTypeEnd),
        (bitHousePos, bitHousePos), (bitWeaponPos, bitWeaponPos),
        (bitFamilyPos, bitFamilyPos), (bitManaStart, bitManaEnd),
        (bitHealthStart, bitHealthEnd)], r.1 ≤ r.2 ∧ r.2 ≤ 46) ∧
    [(bitNameStart, bitNameEnd), (bitRespectStart, bitRespectEnd),
        (bitStrengthStart, bitStrengthEnd), (bitExperienceStart, bitExperienceEnd),
        (bitLevelStart, bitLevelEnd), (bitTypeStart, bitTypeEnd),
        (bitHousePos, bitHousePos), (bitWeaponPos, bitWeaponPos),
        (bitFamilyPos, bitFamilyPos), (bitManaStart, bitManaEnd),
        (bitHealthStart, bitHealthEnd)].map (fun r => r.2 - r.1 + 1)
      = [6, 4, 4, 4, 4, 2, 1, 1, 1, 10, 10] := by
  refine ⟨⟨rfl, rfl, rfl, rfl, rfl, rfl, rfl, rfl, rfl, rfl, rfl⟩, by decide, by decide,
    by decide, by decide⟩

/-! ## Masks and ranges -/

/-- C32: `computeMask width = 2^width - 1` for every `width < 64` (so `computeMask 0 = 0`),
`computeMask width = 2^64 - 1` for every width from 64 on, and
`maxAllowedForWidth width = computeMask width` for every width. -/
theorem C32_compute_mask (width : Nat) :
    (width < 64 → computeMask width = 2 ^ width - 1) ∧
    computeMask 0 = 0 ∧
    (64 ≤ width → computeMask width = 18446744073709551615) ∧
    maxAllowedForWidth width = computeMask width := by
  refine ⟨fun h => computeMask_eq (by omega), by decide, fun h => ?_, rfl⟩
  unfold computeMask
  rw [if_pos h]
  rfl

theorem C32_compute_mask_witness :
    (63 < 64 ∧ computeMask 63 = 2 ^ 63 - 1) ∧
      (64 ≤ 255 ∧ computeMask 255 = 18446744073709551615) :=
  ⟨⟨by decide, (C32_compute_mask 63).1 (by decide)⟩,
    ⟨by decide, (C32_compute_mask 255).2.2.1 (by decide)⟩⟩

/-- C33: `intRangeForWidth width = (-2^(width-1), 2^(width-1) - 1)` for every width in
`[1,63]`, and `(minimum int64, maximum int64)` for every `width ≥ 64`. -/
theorem C33_int_range_for_width (width : Nat) :
    (1 ≤ width → width ≤ 63 →
      intRangeForWidth width = (-2 ^ (width - 1), 2 ^ (width - 1) - 1)) ∧
    (64 ≤ width →
      intRangeForWidth width = (-9223372036854775808, 9223372036854775807)) := by
  refine ⟨fun h1 h2 => intRangeForWidth_eq h1 (by omega), fun h => ?_⟩
  unfold intRangeForWidth
  rw [if_pos h]
  rfl

theorem C33_int_range_for_width_witness :
    ((1 : Nat) ≤ 4 ∧ 4 ≤ 63 ∧ intRangeForWidth 4 = (-2 ^ (4 - 1), 2 ^ (4 - 1) - 1)) ∧
      (64 ≤ 100 ∧ intRangeForWidth 100 = (-9223372036854775808, 9223372036854775807)) :=
  ⟨⟨by decide, by decide, (C33_int_range_for_width 4).1 (by decide) (by decide)⟩,
    ⟨by decide, (C33_int_range_for_width 100).2 (by decide)⟩⟩

/-! ## Error details and messages -/

/-- C34: when `NewIntBitField` rejects a range because `max` exceeds the width's largest
value while `min` is representable, the `ValueOverflow` error records `min`, not the
offending `max`, as the observed value (next to the allowed minimum, maximum and the bit
width): evaluated on the 4-bit field `[0,3]` with `min = -8`, `max = 8`, where the message
reads "value -8 exceeds maximum 7 for 4-bit field". -/
theorem C34_overflow_details_record_min :
    (NewIntBitField 0 3 (-8) 8).2 =
      some { Kind := ErrorKind.KindValueOverflow,
             Details := { SignedValue := -8, MinValue := -8, MaxValue := 7, BitWidth := 4 } } ∧
    (NewIntBitField 0 3 (-8) 8).2.map (fun e => e.Details.SignedValue) ≠ some 8 ∧
    (NewIntBitField 0 3 (-8) 8).2.map Error.Error =
      some "value -8 exceeds maximum 7 for 4-bit field" ∧
    (∀ (start end_ : Nat) (min max : Int), start ≤ end_ → end_ ≤ 63 →
      -2 ^ (end_ - start + 1 - 1) ≤ min → max > 2 ^ (end_ - start + 1 - 1) - 1 →
      (NewIntBitField start end_ min max).2 =
        some { Kind := ErrorKind.KindValueOverflow,
               Details := { SignedValue := min, MinValue := -2 ^ (end_ - start + 1 - 1),
                            MaxValue := 2 ^ (end_ - start + 1 - 1) - 1,
                            BitWidth := end_ - start + 1 } }) := by
  refine ⟨by decide, by decide, by decide, ?_⟩
  intro start end_ min max h1 h2 hlo hhi
  simp only [Nat.add_sub_cancel] at hlo hhi ⊢
  unfold NewIntBitField
  rw [if_neg (by omega), if_neg (by omega)]
  simp only [width_eq h1 h2]
  rw [intRangeForWidth_eq (by omega) (by omega)]
  simp only [Nat.add_sub_cancel]
  rw [if_pos (Or.inr hhi)]
  unfold newValueOutOfRangeError
  simp only [if_neg (not_lt.mpr hlo)]

/-- C35: for a validly constructed signed field and a value `v > Max`, the message of the
error `Update word v` returns is "value v exceeds maximum Max for width-bit field" only when
`v ≠ 0`; the value `0` above a negative `Max` gets the unsigned message instead: evaluated
on the field `[0,7]` with range `[-50,-10]` and `v = 0`. -/
theorem C35_overflow_message_zero :
    NewIntBitField 0 7 (-50) (-10) = (⟨0, 7, -50, -10, 255⟩, none) ∧
    ((IntBitField.mk 0 7 (-50) (-10) 255).Update 0 0).2.map Error.Error =
      some "value 0 exceeds capacity of 8-bit field (max allowed: 0)" ∧
    ((IntBitField.mk 0 7 (-50) (-10) 255).Update 0 0).2.map Error.Error ≠
      some "value 0 exceeds maximum -10 for 8-bit field" ∧
    (∀ (start end_ : Nat) (min max : Int) (bf : IntBitField) (word : Nat) (v : Int),
      NewIntBitField start end_ min max = (bf, none) → v > bf.Max → v ≠ 0 →
      (bf.Update word v).2.map Error.Error =
        some ("value " ++ toString v ++ " exceeds maximum " ++ toString bf.Max ++ " for " ++
          toString bf.Width ++ "-bit field")) := by
  refine ⟨by decide, by decide, by decide, ?_⟩
  intro start end_ min max bf word v h hv hv0
  obtain ⟨-, -, -, hle, -, rfl⟩ := NewIntBitField_ok h
  simp only at hv
  unfold IntBitField.Update
  rw [if_pos (Or.inr hv)]
  unfold newValueOutOfRangeError
  have hnlo : ¬ v < min := by omega
  simp only [if_neg hnlo, Option.map_some', Error.Error, if_pos hv0, ne_eq]

/-! ## Algebra of unchecked updates -/

/-- Writing a value whose low `w` bits are the field's bits gives the 64-bit word back. -/
theorem updateCore_self (word v s w : Nat) (hsw : s + w ≤ 64) (hword : word < 2 ^ 64)
    (hv : v % 2 ^ w = shr64 word s % 2 ^ w) :
    (word &&& not64 (shl64 (2 ^ w - 1) s)) ||| shl64 (v &&& (2 ^ w - 1)) s = word := by
  apply Nat.eq_of_testBit_eq
  intro i
  rw [testBit_updateCore _ _ _ _ _ hsw]
  by_cases hin : s ≤ i ∧ i < s + w
  · rw [if_pos hin]
    have h1 : i - s < w := by omega
    have h2 : (v % 2 ^ w).testBit (i - s) = v.testBit (i - s) := by
      rw [Nat.testBit_mod_two_pow]; simp [h1]
    have h3 : (shr64 word s % 2 ^ w).testBit (i - s) = word.testBit i := by
      unfold shr64
      rw [Nat.testBit_mod_two_pow, Nat.testBit_shiftRight]
      simp [h1, show s + (i - s) = i by omega]
    rw [← h2, hv, h3]
  · rw [if_neg hin]
    by_cases h64 : i < 64
    · simp [h64]
    · simp [h64, testBit_ge_64 hword (show 64 ≤ i by omega)]

/-- Two writes into disjoint spans commute. -/
theorem updateCore_comm (word a b s1 w1 s2 w2 : Nat) (h1 : s1 + w1 ≤ 64) (h2 : s2 + w2 ≤ 64)
    (hd : s1 + w1 ≤ s2 ∨ s2 + w2 ≤ s1) :
    ((((word &&& not64 (shl64 (2 ^ w2 - 1) s2)) ||| shl64 (b &&& (2 ^ w2 - 1)) s2) &&&
        not64 (shl64 (2 ^ w1 - 1) s1)) ||| shl64 (a &&& (2 ^ w1 - 1)) s1) =
    ((((word &&& not64 (shl64 (2 ^ w1 - 1) s1)) ||| shl64 (a &&& (2 ^ w1 - 1)) s1) &&&
        not64 (shl64 (2 ^ w2 - 1) s2)) ||| shl64 (b &&& (2 ^ w2 - 1)) s2) := by
  apply Nat.eq_of_testBit_eq
  intro i
  rw [testBit_updateCore _ _ _ _ _ h1, testBit_updateCore _ _ _ _ _ h2,
    testBit_updateCore _ _ _ _ _ h2, testBit_updateCore _ _ _ _ _ h1]
  by_cases hA : s1 ≤ i ∧ i < s1 + w1
  · have hB : ¬ (s2 ≤ i ∧ i < s2 + w2) := by omega
    have h64 : i < 64 := by omega
    simp [hA, hB, h64]
  · by_cases hB : s2 ≤ i ∧ i < s2 + w2
    · have h64 : i < 64 := by omega
      simp [hA, hB, h64]
    · simp [hA, hB]

theorem int_raw_of_get {s e : Nat} (h1 : s ≤ e) (h2 : e ≤ 63) (mn mx : Int) (word : Nat) :
    toUint64 ((IntBitField.mk s e mn mx (2 ^ (e - s + 1) - 1)).Get word) % 2 ^ (e - s + 1) =
      shr64 word s % 2 ^ (e - s + 1) := by
  have hc := toUint64_mod_cast ((IntBitField.mk s e mn mx (2 ^ (e - s + 1) - 1)).Get word)
    (show e - s + 1 ≤ 64 by omega)
  rw [int_get_eq h1 h2] at hc ⊢
  have hraw : shr64 word s % 2 ^ (e - s + 1) < 2 ^ (e - s + 1) :=
    Nat.mod_lt _ (Nat.pos_pow_of_pos _ (by norm_num))
  have hrawz : ((shr64 word s % 2 ^ (e - s + 1) : Nat) : Int) < 2 ^ (e - s + 1) := by
    rw [← two_pow_cast]; exact_mod_cast hraw
  have hmod : (if shr64 word s % 2 ^ (e - s + 1) < 2 ^ (e - s)
      then ((shr64 word s % 2 ^ (e - s + 1) : Nat) : Int)
      else ((shr64 word s % 2 ^ (e - s + 1) : Nat) : Int) - 2 ^ (e - s + 1))
      % 2 ^ (e - s + 1) = ((shr64 word s % 2 ^ (e - s + 1) : Nat) : Int) := by
    split
    · exact Int.emod_eq_of_lt (by omega) hrawz
    · rw [Int.sub_emod, Int.emod_self, sub_zero, Int.emod_emod_of_dvd _ (dvd_refl _)]
      exact Int.emod_eq_of_lt (by omega) hrawz
  rw [hmod] at hc
  exact_mod_cast hc

/-- C36: for every validly constructed unsigned or signed field and every 64-bit word,
`UpdateUnchecked word (Get word) = word`. -/
theorem C36_write_back_read (word : Nat) (hw : word < 2 ^ 64) :
    (∀ (start end_ max : Nat) (bf : UIntBitField),
      NewUIntBitField start end_ max = (bf, none) →
        bf.UpdateUnchecked word (bf.Get word) = word) ∧
    (∀ (start end_ : Nat) (min max : Int) (bf : IntBitField),
      NewIntBitField start end_ min max = (bf, none) →
        bf.UpdateUnchecked word (bf.Get word) = word) := by
  refine ⟨?_, ?_⟩
  · intro start end_ max bf h
    obtain ⟨h1, h2, -, rfl⟩ := NewUIntBitField_ok h
    unfold UIntBitField.UpdateUnchecked UIntBitField.Get
    simp only
    apply updateCore_self _ _ _ _ (by omega) hw
    rw [Nat.and_pow_two_sub_one_eq_mod, Nat.mod_mod]
  · intro start end_ min max bf h
    obtain ⟨h1, h2, -, -, -, rfl⟩ := NewIntBitField_ok h
    have hraw := int_raw_of_get h1 h2 min max word
    unfold IntBitField.UpdateUnchecked
    simp only
    exact updateCore_self _ _ _ _ (by omega) hw hraw

theorem C36_write_back_read_witness :
    0xFFD6FF < 2 ^ 64 ∧
      NewIntBitField 8 15 (-128) 127 = (⟨8, 15, -128, 127, 255⟩, none) ∧
      (IntBitField.mk 8 15 (-128) 127 255).Get 0xFFD6FF = -42 ∧
      (IntBitField.mk 8 15 (-128) 127 255).UpdateUnchecked 0xFFD6FF
        ((IntBitField.mk 8 15 (-128) 127 255).Get 0xFFD6FF) = 0xFFD6FF :=
  ⟨by decide, by decide, by decide,
    (C36_write_back_read 0xFFD6FF (by decide)).2 8 15 (-128) 127 ⟨8, 15, -128, 127, 255⟩
      (by decide)⟩

/-- C37: for any two validly constructed unsigned or signed fields `A` and `B` with disjoint
bit ranges, any word and any values `a` and `b`,
`A.UpdateUnchecked (B.UpdateUnchecked word b) a =
B.UpdateUnchecked (A.UpdateUnchecked word a) b`. -/
theorem C37_disjoint_updates_commute (word : Nat) :
    (∀ (sA eA mA : Nat) (A : UIntBitField) (sB eB mB : Nat) (B : UIntBitField) (a b : Nat),
      NewUIntBitField sA eA mA = (A, none) → NewUIntBitField sB eB mB = (B, none) →
      (A.End < B.Start ∨ B.End < A.Start) →
        A.UpdateUnchecked (B.UpdateUnchecked word b) a =
          B.UpdateUnchecked (A.UpdateUnchecked word a) b) ∧
    (∀ (sA eA mA : Nat) (A : UIntBitField) (sB eB : Nat) (mnB mxB : Int) (B : IntBitField)
      (a : Nat) (b : Int),
      NewUIntBitField sA eA mA = (A, none) → NewIntBitField sB eB mnB mxB = (B, none) →
      (A.End < B.Start ∨ B.End < A.Start) →
        A.UpdateUnchecked (B.UpdateUnchecked word b) a =
          B.UpdateUnchecked (A.UpdateUnchecked word a) b) ∧
    (∀ (sA eA : Nat) (mnA mxA : Int) (A : IntBitField) (sB eB mB : Nat) (B : UIntBitField)
      (a : Int) (b : Nat),
      NewIntBitField sA eA mnA mxA = (A, none) → NewUIntBitField sB eB mB = (B, none) →
      (A.End < B.Start ∨ B.End < A.Start) →
        A.UpdateUnchecked (B.UpdateUnchecked word b) a =
          B.UpdateUnchecked (A.UpdateUnchecked word a) b) ∧
    (∀ (sA eA : Nat) (mnA mxA : Int) (A : IntBitField) (sB eB : Nat) (mnB mxB : Int)
      (B : IntBitField) (a b : Int),
      NewIntBitField sA eA mnA mxA = (A, none) → NewIntBitField sB eB mnB mxB = (B, none) →
      (A.End < B.Start ∨ B.End < A.Start) →
        A.UpdateUnchecked (B.UpdateUnchecked word b) a =
          B.UpdateUnchecked (A.UpdateUnchecked word a) b) := by
  refine ⟨?_, ?_, ?_, ?_⟩
  · intro sA eA mA A sB eB mB B a b hA hB hd
    obtain ⟨a1, a2, -, rfl⟩ := NewUIntBitField_ok hA
    obtain ⟨b1, b2, -, rfl⟩ := NewUIntBitField_ok hB
    simp only at hd
    unfold UIntBitField.UpdateUnchecked
    simp only
    exact updateCore_comm word a b sA _ sB _ (by omega) (by omega) (by omega)
  · intro sA eA mA A sB eB mnB mxB B a b hA hB hd
    obtain ⟨a1, a2, -, rfl⟩ := NewUIntBitField_ok hA
    obtain ⟨b1, b2, -, -, -, rfl⟩ := NewIntBitField_ok hB
    simp only at hd
    unfold UIntBitField.UpdateUnchecked IntBitField.UpdateUnchecked
    simp only
    exact updateCore_comm word a (toUint64 b) sA _ sB _ (by omega) (by omega) (by omega)
  · intro sA eA mnA mxA A sB eB mB B a b hA hB hd
    obtain ⟨a1, a2, -, -, -, rfl⟩ := NewIntBitField_ok hA
    obtain ⟨b1, b2, -, rfl⟩ := NewUIntBitField_ok hB
    simp only at hd
    unfold UIntBitField.UpdateUnchecked IntBitField.UpdateUnchecked
    simp only
    exact updateCore_comm word (toUint64 a) b sA _ sB _ (by omega) (by omega) (by omega)
  · intro sA eA mnA mxA A sB eB mnB mxB B a b hA hB hd
    obtain ⟨a1, a2, -, -, -, rfl⟩ := NewIntBitField_ok hA
    obtain ⟨b1, b2, -, -, -, rfl⟩ := NewIntBitField_ok hB
    simp only at hd
    unfold IntBitField.UpdateUnchecked
    simp only
    exact updateCore_comm word (toUint64 a) (toUint64 b) sA _ sB _ (by omega) (by omega)
      (by omega)

theorem C37_disjoint_updates_commute_witness :
    NewUIntBitField 8 15 100 = (⟨8, 15, 100, 255⟩, none) ∧
      NewIntBitField 0 7 (-50) 100 = (⟨0, 7, -50, 100, 255⟩, none) ∧
      (UIntBitField.mk 8 15 100 255).UpdateUnchecked
        ((IntBitField.mk 0 7 (-50) 100 255).UpdateUnchecked 0xABCDEF (-5)) 65 = 0xAB41FB ∧
      (UIntBitField.mk 8 15 100 255).UpdateUnchecked
          ((IntBitField.mk 0 7 (-50) 100 255).UpdateUnchecked 0xABCDEF (-5)) 65 =
        (IntBitField.mk 0 7 (-50) 100 255).UpdateUnchecked
          ((UIntBitField.mk 8 15 100 255).UpdateUnchecked 0xABCDEF 65) (-5) :=
  ⟨by decide, by decide, by decide,
    (C37_disjoint_updates_commute 0xABCDEF).2.1 8 15 100 ⟨8, 15, 100, 255⟩ 0 7 (-50) 100
      ⟨0, 7, -50, 100, 255⟩ 65 (-5) (by decide) (by decide) (Or.inr (by decide))⟩

/-! ## Re-packing and long or short buffers -/

theorem sum_shift (f : Nat → Nat) (j n : Nat) :
    Finset.sum (Finset.range n) (fun k => f k * 2 ^ (8 * (j + k))) =
      2 ^ (8 * j) * Finset.sum (Finset.range n) (fun k => f k * 2 ^ (8 * k)) := by
  rw [Finset.mul_sum]
  apply Finset.sum_congr rfl
  intro k _
  rw [Nat.mul_add, Nat.pow_add]
  ring

/-- Packing a word whose digits from index `i` on are the bytes of `data` writes `data`. -/
theorem pack_loop_self (data : List Nat) :
    ∀ (i acc W : Nat), (∀ b ∈ data, b < 256) → acc < 2 ^ (8 * i) →
      W = acc + Finset.sum (Finset.range data.length)
        (fun k => data.getD k 0 * 2 ^ (8 * (i + k))) →
      PackBytes.loop W i data = data := by
  induction data with
  | nil => intro i acc W _ _ _; rfl
  | cons b rest ih =>
    intro i acc W hb hacc hW
    have hb0 : b < 256 := hb b (List.mem_cons_self _ _)
    have hrest : ∀ x ∈ rest, x < 256 := fun x hx => hb x (List.mem_cons_of_mem _ hx)
    rw [List.length_cons, Finset.sum_range_succ'] at hW
    simp only [List.getD_cons_succ, List.getD_cons_zero, Nat.add_zero] at hW
    have hre : ∀ k, 8 * (i + (k + 1)) = 8 * (i + 1 + k) := fun k => by ring
    simp only [hre] at hW
    have hp : 2 ^ (8 * (i + 1)) = 2 ^ (8 * i) * 256 := by
      rw [show 8 * (i + 1) = 8 * i + 8 by ring, Nat.pow_add]
    have hpos : 0 < 2 ^ (8 * i) := Nat.pos_pow_of_pos _ (by norm_num)
    have hacc2 : acc + b * 2 ^ (8 * i) < 2 ^ (8 * (i + 1)) := by
      have h3 : b * 2 ^ (8 * i) ≤ 255 * 2 ^ (8 * i) := Nat.mul_le_mul_right _ (by omega)
      omega
    have htail := ih (i + 1) (acc + b * 2 ^ (8 * i)) W hrest hacc2 (by omega)
    have hhead : shr64 W (8 * i) % 256 = b := by
      unfold shr64
      rw [Nat.shiftRight_eq_div_pow, hW, sum_shift, hp]
      have e : acc + (2 ^ (8 * i) * 256 *
          Finset.sum (Finset.range rest.length) (fun k => rest.getD k 0 * 2 ^ (8 * k)) +
          b * 2 ^ (8 * i)) =
          acc + 2 ^ (8 * i) * (b + 256 *
            Finset.sum (Finset.range rest.length) (fun k => rest.getD k 0 * 2 ^ (8 * k))) := by
        ring
      rw [e, Nat.add_mul_div_left _ _ hpos, Nat.div_eq_of_lt hacc, Nat.zero_add,
        Nat.add_mul_mod_self_left]
      exact Nat.mod_eq_of_lt hb0
    unfold PackBytes.loop
    rw [hhead, htail]

theorem pack_unpack (data : List Nat) (hlen : data.length ≤ 8) (hb : ∀ b ∈ data, b < 256) :
    PackBytes data (UnpackBytes data) = data := by
  unfold PackBytes
  apply pack_loop_self data 0 0 _ hb (by norm_num)
  unfold UnpackBytes
  rw [unpack_loop_eq data 0 0 (by omega) hb (by norm_num)]

/-- C38: for every byte slice `b` with `len(b) ≤ 8`, `PackBytes(b, UnpackBytes(b))` leaves
every byte of `b` unchanged. -/
theorem C38_repack_identity (data : List Nat) (hlen : data.length ≤ 8)
    (hb : ∀ b ∈ data, b < 256) :
    PackBytes data (UnpackBytes data) = data :=
  pack_unpack data hlen hb

theorem C38_repack_identity_witness :
    [0xF0, 0xDE, 0xBC].length ≤ 8 ∧ (∀ b ∈ [0xF0, 0xDE, 0xBC], b < 256) ∧
      UnpackBytes [0xF0, 0xDE, 0xBC] = 0xBCDEF0 ∧
      PackBytes [0xF0, 0xDE, 0xBC] (UnpackBytes [0xF0, 0xDE, 0xBC]) = [0xF0, 0xDE, 0xBC] :=
  ⟨by decide, by decide, by decide,
    C38_repack_identity [0xF0, 0xDE, 0xBC] (by decide) (by decide)⟩

theorem shl64_high (b i : Nat) (hi : 8 ≤ i) : shl64 b (8 * i) = 0 := by
  apply Nat.eq_of_testBit_eq
  intro j
  rw [testBit_shl64, Nat.zero_testBit]
  by_cases h : j < 64
  · have : ¬ 8 * i ≤ j := by omega
    simp [this]
  · simp [h]

theorem shl64_lt (x s : Nat) : shl64 x s < 2 ^ 64 :=
  Nat.mod_lt _ (by norm_num)

theorem unpack_loop_high (data : List Nat) :
    ∀ (i acc : Nat), 8 ≤ i → UnpackBytes.loop i acc data = acc := by
  induction data with
  | nil => intro i acc _; rfl
  | cons b rest ih =>
    intro i acc hi
    unfold UnpackBytes.loop
    rw [shl64_high b i hi, Nat.or_zero]
    exact ih (i + 1) acc (by omega)

theorem unpack_loop_append (l1 l2 : List Nat) :
    ∀ (i acc : Nat), UnpackBytes.loop i acc (l1 ++ l2) =
      UnpackBytes.loop (i + l1.length) (UnpackBytes.loop i acc l1) l2 := by
  induction l1 with
  | nil => intro i acc; rfl
  | cons b rest ih =>
    intro i acc
    rw [List.cons_append, List.length_cons]
    show UnpackBytes.loop (i + 1) (acc ||| shl64 b (8 * i)) (rest ++ l2) =
      UnpackBytes.loop (i + (rest.length + 1))
        (UnpackBytes.loop (i + 1) (acc ||| shl64 b (8 * i)) rest) l2
    rw [ih (i + 1)]
    congr 1
    omega

theorem unpack_loop_lt (data : List Nat) :
    ∀ (i acc : Nat), acc < 2 ^ 64 → UnpackBytes.loop i acc data < 2 ^ 64 := by
  induction data with
  | nil => intro i acc h; exact h
  | cons b rest ih =>
    intro i acc h
    unfold UnpackBytes.loop
    exact ih (i + 1) _ (Nat.or_lt_two_pow h (shl64_lt _ _))

theorem unpack_lt (data : List Nat) : UnpackBytes data < 2 ^ 64 :=
  unpack_loop_lt data 0 0 (by norm_num)

/-- `UnpackBytes` never reads past the first 8 bytes. -/
theorem unpack_take (data : List Nat) (hlen : 8 ≤ data.length) :
    UnpackBytes data = UnpackBytes (data.take 8) := by
  have hsplit : data = data.take 8 ++ data.drop 8 := (List.take_append_drop 8 data).symm
  have hl : (data.take 8).length = 8 := by rw [List.length_take]; omega
  unfold UnpackBytes
  conv_lhs => rw [hsplit]
  rw [unpack_loop_append, unpack_loop_high _ _ _ (by omega)]

theorem shr64_high (v i : Nat) (hv : v < 2 ^ 64) (hi : 8 ≤ i) : shr64 v (8 * i) = 0 := by
  unfold shr64
  rw [Nat.shiftRight_eq_div_pow]
  apply Nat.div_eq_of_lt
  exact Nat.lt_of_lt_of_le hv (Nat.pow_le_pow_right (by norm_num) (by omega))

theorem not64_lt {x : Nat} (hx : x < 2 ^ 64) : not64 x < 2 ^ 64 := by
  unfold not64
  exact Nat.xor_lt_two_pow (by norm_num) hx

theorem updateCore_lt (bitSet m v s : Nat) :
    (bitSet &&& not64 (shl64 m s)) ||| shl64 v s < 2 ^ 64 := by
  apply Nat.or_lt_two_pow _ (shl64_lt _ _)
  exact Nat.lt_of_le_of_lt Nat.and_le_right (not64_lt (shl64_lt _ _))

/-- The bytes `PackBytes` writes on a buffer of any length, for a 64-bit word. -/
theorem pack_bytes_long (packed : List Nat) (W : Nat) (hW : W < 2 ^ 64) :
    (PackBytes packed W).length = packed.length ∧
    (∀ i, 8 ≤ i → i < packed.length → (PackBytes packed W).getD i 0 = 0) ∧
    (∀ i, i < 8 → i < packed.length → (PackBytes packed W).getD i 0 = shr64 W (8 * i) % 256)
    := by
  refine ⟨pack_loop_length W packed 0, ?_, ?_⟩
  · intro i h8 hi
    unfold PackBytes
    rw [pack_loop_getD W packed 0 i hi, Nat.zero_add, shr64_high W i hW h8]
  · intro i _ hi
    unfold PackBytes
    rw [pack_loop_getD W packed 0 i hi, Nat.zero_add]

theorem bool_update_lt {pos : Nat} {field : BoolBitField}
    (hf : NewBoolBitField pos = (field, none)) (W : Nat) (hW : W < 2 ^ 64) (b : Bool) :
    (if b then field.Set W else field.Clear W) < 2 ^ 64 := by
  obtain ⟨hp, rfl⟩ := NewBoolBitField_ok hf
  cases b
  · simp only [Bool.false_eq_true, if_false]
    unfold BoolBitField.Clear
    exact Nat.lt_of_le_of_lt Nat.and_le_left hW
  · simp only [if_true]
    unfold BoolBitField.Set
    exact Nat.or_lt_two_pow hW (Nat.pow_lt_pow_right (by norm_num) (by omega))

/-- C39: on a buffer longer than 8 bytes the unchecked setters read the word from bytes
`0..7` only, write zero into every byte at index `≥ 8`, and write the updated 64-bit word
into bytes `0..7` in little-endian order. -/
theorem C39_long_buffer (packed : List Nat) (hlen : packed.length > 8) :
    UnpackBytes packed = UnpackBytes (packed.take 8) ∧
    (∀ (T : UnsignedInteger) (field : UIntBitField) (value : Nat),
      (SetUIntFieldUncheckedAs T packed field value).length = packed.length ∧
      (∀ i, 8 ≤ i → i < packed.length →
        (SetUIntFieldUncheckedAs T packed field value).getD i 0 = 0) ∧
      (∀ i, i < 8 → (SetUIntFieldUncheckedAs T packed field value).getD i 0 =
        shr64 (field.UpdateUnchecked (UnpackBytes (packed.take 8)) value) (8 * i) % 256)) ∧
    (∀ (T : SignedInteger) (field : IntBitField) (value : Int),
      (SetIntFieldUncheckedAs T packed field value).length = packed.length ∧
      (∀ i, 8 ≤ i → i < packed.length →
        (SetIntFieldUncheckedAs T packed field value).getD i 0 = 0) ∧
      (∀ i, i < 8 → (SetIntFieldUncheckedAs T packed field value).getD i 0 =
        shr64 (field.UpdateUnchecked (UnpackBytes (packed.take 8)) value) (8 * i) % 256)) ∧
    (∀ (pos : Nat) (field : BoolBitField) (value : Bool),
      NewBoolBitField pos = (field, none) →
      (SetBoolFieldUnchecked packed field value).length = packed.length ∧
      (∀ i, 8 ≤ i → i < packed.length →
        (SetBoolFieldUnchecked packed field value).getD i 0 = 0) ∧
      (∀ i, i < 8 → (SetBoolFieldUnchecked packed field value).getD i 0 =
        shr64 (field.UpdateUnchecked (UnpackBytes (packed.take 8)) value) (8 * i) % 256)) := by
  have htake := unpack_take packed (by omega)
  refine ⟨htake, ?_, ?_, ?_⟩
  · intro T field value
    unfold SetUIntFieldUncheckedAs
    rw [htake]
    obtain ⟨hl, hz, hlow⟩ := pack_bytes_long packed
      (field.UpdateUnchecked (UnpackBytes (packed.take 8)) value)
      (by unfold UIntBitField.UpdateUnchecked; exact updateCore_lt _ _ _ _)
    exact ⟨hl, hz, fun i hi => hlow i hi (by omega)⟩
  · intro T field value
    unfold SetIntFieldUncheckedAs
    rw [htake]
    obtain ⟨hl, hz, hlow⟩ := pack_bytes_long packed
      (field.UpdateUnchecked (UnpackBytes (packed.take 8)) value)
      (by unfold IntBitField.UpdateUnchecked; exact updateCore_lt _ _ _ _)
    exact ⟨hl, hz, fun i hi => hlow i hi (by omega)⟩
  · intro pos field value hf
    have hupd : field.UpdateUnchecked (UnpackBytes (packed.take 8)) value =
        (if value then field.Set (UnpackBytes (packed.take 8))
          else field.Clear (UnpackBytes (packed.take 8))) := by
      unfold BoolBitField.UpdateUnchecked BoolBitField.Set BoolBitField.Clear
      rfl
    unfold SetBoolFieldUnchecked
    simp only
    rw [htake, hupd]
    obtain ⟨hl, hz, hlow⟩ := pack_bytes_long packed _
      (bool_update_lt hf (UnpackBytes (packed.take 8)) (unpack_lt _) value)
    exact ⟨hl, hz, fun i hi => hlow i hi (by omega)⟩

theorem C39_long_buffer_witness :
    [1, 2, 3, 4, 5, 6, 7, 8, 9, 10].length > 8 ∧
      UnpackBytes [1, 2, 3, 4, 5, 6, 7, 8, 9, 10] = 0x0807060504030201 ∧
      SetUIntFieldUncheckedAs .uint8 [1, 2, 3, 4, 5, 6, 7, 8, 9, 10] ⟨0, 7, 255, 255⟩ 0xAA =
        [0xAA, 2, 3, 4, 5, 6, 7, 8, 0, 0] ∧
      (SetUIntFieldUncheckedAs .uint8 [1, 2, 3, 4, 5, 6, 7, 8, 9, 10]
        ⟨0, 7, 255, 255⟩ 0xAA).getD 9 0 = 0 :=
  ⟨by decide, by decide, by decide,
    ((C39_long_buffer [1, 2, 3, 4, 5, 6, 7, 8, 9, 10] (by decide)).2.1 .uint8
      ⟨0, 7, 255, 255⟩ 0xAA).2.1 9 (by decide) (by decide)⟩

theorem pack_loop_congr (W1 W2 : Nat) (data : List Nat) :
    ∀ i, (∀ j, j < 8 * (i + data.length) → W1.testBit j = W2.testBit j) →
      PackBytes.loop W1 i data = PackBytes.loop W2 i data := by
  induction data with
  | nil => intro i _; rfl
  | cons b rest ih =>
    intro i h
    simp only [List.length_cons] at h
    have hbyte : shr64 W1 (8 * i) % 256 = shr64 W2 (8 * i) % 256 := by
      apply Nat.eq_of_testBit_eq
      intro j
      unfold shr64
      rw [show (256 : Nat) = 2 ^ 8 by norm_num, Nat.testBit_mod_two_pow,
        Nat.testBit_mod_two_pow, Nat.testBit_shiftRight, Nat.testBit_shiftRight]
      by_cases hj : j < 8
      · rw [h (8 * i + j) (by omega)]
      · simp [hj]
    unfold PackBytes.loop
    rw [hbyte, ih (i + 1) (fun j hj => h j (by omega))]

/-- C40: for a buffer of `n` bytes with `1 ≤ n ≤ 7`, a validly constructed unsigned field
with `Start ≥ 8n` and a value `v ≤ Max`, `SetUIntFieldAs` returns nil and leaves the buffer
as it was, and the following `GetUIntFieldAs` returns `0`, which is not `v` unless `v = 0`. -/
theorem C40_write_beyond_buffer (T : UnsignedInteger) (packed : List Nat)
    (start end_ max : Nat) (field : UIntBitField) (v : Nat)
    (h1 : 1 ≤ packed.length) (h7 : packed.length ≤ 7) (hb : ∀ b ∈ packed, b < 256)
    (hf : NewUIntBitField start end_ max = (field, none))
    (hs : field.Start ≥ 8 * packed.length) (hv : v ≤ field.Max) :
    SetUIntFieldAs T packed field v = (packed, none) ∧
    GetUIntFieldAs T (SetUIntFieldAs T packed field v).1 field = 0 ∧
    (v ≠ 0 → GetUIntFieldAs T (SetUIntFieldAs T packed field v).1 field ≠ v) := by
  have hset : SetUIntFieldAs T packed field v = (packed, none) := by
    rw [SetUIntFieldAs_mid T packed field v h1 (by omega), if_neg (by omega)]
    have hpk : PackBytes packed (field.UpdateUnchecked (UnpackBytes packed) v) =
        PackBytes packed (UnpackBytes packed) := by
      unfold PackBytes
      apply pack_loop_congr
      intro j hj
      obtain ⟨s1, s2, -, rfl⟩ := NewUIntBitField_ok hf
      simp only at hs
      exact uint_frame max s1 s2 _ v j (Or.inl (by omega)) (Or.inl (by omega))
    rw [hpk, pack_unpack packed (by omega) hb]
  have hlt : UnpackBytes packed < 256 ^ packed.length := by
    have h := unpack_pack packed (UnpackBytes packed) (by omega)
    rw [pack_unpack packed (by omega) hb] at h
    rw [h]
    exact Nat.mod_lt _ (Nat.pos_pow_of_pos _ (by norm_num))
  have hget : GetUIntFieldAs T packed field = 0 := by
    unfold GetUIntFieldAs UIntBitField.Get UnsignedInteger.convert shr64
    have hz : UnpackBytes packed >>> field.Start = 0 := by
      rw [Nat.shiftRight_eq_div_pow]
      apply Nat.div_eq_of_lt
      rw [pow_256] at hlt
      exact Nat.lt_of_lt_of_le hlt (Nat.pow_le_pow_right (by norm_num) hs)
    rw [hz, Nat.zero_and, Nat.zero_mod]
  rw [hset]
  exact ⟨rfl, hget, fun hv0 => by rw [hget]; exact fun h => hv0 h.symm⟩

theorem C40_write_beyond_buffer_witness :
    (1 ≤ [0xAA, 0xBB].length ∧ [0xAA, 0xBB].length ≤ 7 ∧ (∀ b ∈ [0xAA, 0xBB], b < 256)) ∧
      NewUIntBitField 16 23 255 = (⟨16, 23, 255, 255⟩, none) ∧
      SetUIntFieldAs .uint8 [0xAA, 0xBB] ⟨16, 23, 255, 255⟩ 200 = ([0xAA, 0xBB], none) ∧
      GetUIntFieldAs .uint8 (SetUIntFieldAs .uint8 [0xAA, 0xBB] ⟨16, 23, 255, 255⟩ 200).1
        ⟨16, 23, 255, 255⟩ = 0 :=
  ⟨⟨by decide, by decide, by decide⟩, by decide,
    (C40_write_beyond_buffer .uint8 [0xAA, 0xBB] 16 23 255 ⟨16, 23, 255, 255⟩ 200
      (by decide) (by decide) (by decide) (by decide) (by decide) (by decide)).1,
    (C40_write_beyond_buffer .uint8 [0xAA, 0xBB] 16 23 255 ⟨16, 23, 255, 255⟩ 200
      (by decide) (by decide) (by decide) (by decide) (by decide) (by decide)).2.1⟩

end Bitpack
